import Mathlib

/-!
# Verification of the empirical complexity estimator

Shallow embedding of `scripts/estimate_complexity.py` over the real numbers
(idealized floating point).  Python floats are modelled as `ℝ`; the initial
`best_score = float('inf')` of `_score_models` is modelled by an `Option ℝ`
state (`none` = infinity): with IEEE arithmetic the first applicable model
always becomes the current best (the strict-improvement test compares against
`inf - inf = nan` and fails, the tie test `|rmse - inf| <= inf` succeeds and
the priority test against the sentinel `999` succeeds), which is exactly the
behaviour of the `none` branch below.  `statistics.fmean` raises on an empty
list in Python; every call site reached from `detect_complexity` passes a
nonempty list, and the embedding guards the one spot (`scoreStep`) where an
empty timing list would make Python skip a model via `StatisticsError`.

The measurement harness (`measure_execution_time` / `_measure_heuristic`)
performs I/O and reflection; it is embedded with the candidate function
abstracted as a deterministic map from the passed value to a call outcome
(average duration, a `TypeError`, or another exception), and uncaught
exception propagation modelled by `Except.error`.
-/

namespace EstimateComplexity

open Real List

open scoped Classical

/-- Python's `statistics.fmean` (callers below always pass nonempty lists). -/
noncomputable def fmean (l : List ℝ) : ℝ := l.sum / l.length

/-- `math.sqrt(statistics.fmean(r * r for r in residuals))` from `_score_models`. -/
noncomputable def rmseOf (rs : List ℝ) : ℝ := Real.sqrt (fmean (rs.map fun r => r * r))

/-- Python's built-in `min` on a nonempty list of floats. -/
noncomputable def listMin : List ℝ → ℝ
  | [] => 0
  | t :: ts => ts.foldl min t

/-- `len(set(theoretical)) == 1`: the list is nonempty and all entries coincide. -/
def allSame (l : List ℝ) : Prop := l ≠ [] ∧ ∀ y ∈ l, y = l.headI

/-- `denom = n * sum_xx - sum_x * sum_x` from `_compute_residuals`. -/
noncomputable def regDenom (xs : List ℝ) : ℝ :=
  (xs.length : ℝ) * (xs.map fun x => x * x).sum - xs.sum * xs.sum

/-- `a = (n * sum_xy - sum_x * sum_y) / denom` from `_compute_residuals`. -/
noncomputable def regSlope (ts xs : List ℝ) : ℝ :=
  ((xs.length : ℝ) * ((xs.zip ts).map fun p => p.1 * p.2).sum - xs.sum * ts.sum) / regDenom xs

/-- `b = (sum_y - a * sum_x) / n` from `_compute_residuals`. -/
noncomputable def regIntercept (ts xs : List ℝ) : ℝ :=
  (ts.sum - regSlope ts xs * xs.sum) / (xs.length : ℝ)

/-- `_compute_residuals(normalized_times, theoretical)` from the source:
constant theoretical values are fitted by the mean, otherwise least-squares
regression with intercept, rejecting degenerate denominators and
non-positive slopes. -/
noncomputable def _compute_residuals (normalized_times theoretical : List ℝ) :
    Option (List ℝ) :=
  if allSame theoretical then
    some (normalized_times.map fun t => t - fmean normalized_times)
  else if |regDenom theoretical| < 1e-12 then none
  else if regSlope normalized_times theoretical ≤ 1e-12 then none
  else some ((normalized_times.zip theoretical).map fun p =>
    p.1 - (regSlope normalized_times theoretical * p.2 + regIntercept normalized_times theoretical))

def constName : String := "O(1) (Constant)"

def logName : String := "O(log n) (Logarithmic)"

def linName : String := "O(n) (Linear)"

def nlognName : String := "O(n log n) (Linearithmic)"

def quadName : String := "O(n^2) (Quadratic)"

/-- The `models` list from `detect_complexity`. -/
noncomputable def models (n_values : List ℝ) : List (String × List ℝ) :=
  [(constName, n_values.map fun _ => 1),
   (logName, n_values.map fun n => if 0 < n then Real.log n else 0),
   (linName, n_values),
   (nlognName, n_values.map fun n => if 0 < n then n * Real.log n else 0),
   (quadName, n_values.map fun n => n ^ 2)]

/-- The `model_priority` table from `detect_complexity` (the `999` default is
the sentinel Python uses while `best_fit` is still `None`). -/
def model_priority : String → ℕ := fun name =>
  if name = constName then 0
  else if name = logName then 1
  else if name = linName then 2
  else if name = nlognName then 3
  else if name = quadName then 4
  else 999

/-- One iteration of the loop in `_score_models`.  The state is the current
`(best_fit, best_score)` (with `none` standing for the initial
`(None, float('inf'))`) together with the `scores` dictionary.  The guard on
an empty timing list mirrors Python's `statistics.StatisticsError` being
caught and the model skipped. -/
noncomputable def scoreStep (normalized_times : List ℝ)
    (st : Option (String × ℝ) × (String → Option ℝ)) (m : String × List ℝ) :
    Option (String × ℝ) × (String → Option ℝ) :=
  if normalized_times = [] then st else
  match _compute_residuals normalized_times m.2 with
  | none => st
  | some rs =>
    let rmse := rmseOf rs
    let scores' : String → Option ℝ := fun name => if name = m.1 then some rmse else st.2 name
    match st.1 with
    | none => (some (m.1, rmse), scores')
    | some (bf, bs) =>
      let threshold := if 0 < bs then (0.05 : ℝ) * bs else 1e-9
      if rmse < bs - threshold then (some (m.1, rmse), scores')
      else if |rmse - bs| ≤ threshold ∧ model_priority m.1 < model_priority bf then
        (some (m.1, rmse), scores')
      else (some (bf, bs), scores')

/-- `_score_models(normalized_times, models, model_priority)` from the source. -/
noncomputable def _score_models (normalized_times : List ℝ) (ms : List (String × List ℝ)) :
    Option (String × ℝ) × (String → Option ℝ) :=
  ms.foldl (scoreStep normalized_times) (none, fun _ => none)

/-- The `pairs` filter of `_tie_break_linear_vs_nlogn`: keep `(n, t)` with
`n > 1 and t > 0`. -/
noncomputable def logPairs (n_values times : List ℝ) : List (ℝ × ℝ) :=
  (n_values.zip times).filter fun p => decide (1 < p.1 ∧ 0 < p.2)

/-- `mean_ln` of `_tie_break_linear_vs_nlogn`. -/
noncomputable def meanLn (n_values times : List ℝ) : ℝ :=
  fmean ((logPairs n_values times).map fun p => Real.log p.1)

/-- `var_ln` of `_tie_break_linear_vs_nlogn`. -/
noncomputable def varLn (n_values times : List ℝ) : ℝ :=
  (((logPairs n_values times).map fun p => Real.log p.1).map
    fun x => (x - meanLn n_values times) ^ 2).sum

/-- The observed log-log `slope = cov / var_ln` of `_tie_break_linear_vs_nlogn`. -/
noncomputable def logLogSlope (n_values times : List ℝ) : ℝ :=
  let log_n := (logPairs n_values times).map fun p => Real.log p.1
  let log_t := (logPairs n_values times).map fun p => Real.log p.2
  let mean_lt := fmean log_t
  (((log_n.zip log_t).map fun p =>
    (p.1 - meanLn n_values times) * (p.2 - mean_lt)).sum) / varLn n_values times

/-- `ln_mid = log(exp(mean_ln))` of `_tie_break_linear_vs_nlogn`. -/
noncomputable def lnMid (n_values times : List ℝ) : ℝ :=
  Real.log (Real.exp (meanLn n_values times))

/-- `_tie_break_linear_vs_nlogn(n_values, times, scores)` from the source;
`none` models the `(None, None)` return. -/
noncomputable def _tie_break_linear_vs_nlogn (n_values times : List ℝ)
    (scores : String → Option ℝ) : Option (String × ℝ) :=
  match scores linName, scores nlognName with
  | some linear_rmse, some nlogn_rmse =>
    let threshold := (0.05 : ℝ) * min linear_rmse nlogn_rmse
    if threshold < |linear_rmse - nlogn_rmse| then none
    else if (logPairs n_values times).length < 2 then none
    else if varLn n_values times = 0 then none
    else if |lnMid n_values times| < 1e-6 then none
    else if |logLogSlope n_values times - 1| ≤
        |logLogSlope n_values times - (1 + 1 / lnMid n_values times)| then
      some (linName, linear_rmse)
    else some (nlognName, nlogn_rmse)
  | _, _ => none

/-- `min_time` after the epsilon-floor substitution in `detect_complexity`
(`if min_time <= 0: min_time = 1e-9`). -/
noncomputable def minTime (times : List ℝ) : ℝ :=
  if listMin times ≤ 0 then 1e-9 else listMin times

/-- `normalized_times = [t / min_time for t in times]` from `detect_complexity`. -/
noncomputable def normalizeTimes (times : List ℝ) : List ℝ :=
  times.map fun t => t / minTime times

/-- `detect_complexity(n_values, times)` from the source.  The Python result
`(None, None)` is `(none, none)`; a verdict is `(some name, some rmse)`.
(The unreachable-in-practice Python return `(None, float('inf'))`, produced
only when every model is excluded, is also encoded as `(none, none)`.) -/
noncomputable def detect_complexity (n_values times : List ℝ) :
    Option String × Option ℝ :=
  if times.length < 3 then (none, none)
  else
    match _score_models (normalizeTimes times) (models n_values) with
    | (none, _) => (none, none)
    | (some (bf, bs), scores) =>
      if bf = linName ∨ bf = nlognName then
        match _tie_break_linear_vs_nlogn n_values times scores with
        | some (tf, tsc) => (some tf, some tsc)
        | none => (some bf, some bs)
      else (some bf, some bs)

/-! ## Measurement harness and input synthesizer

`measure_execution_time` / `_measure_heuristic` / `main` perform reflection,
wall-clock timing and printing.  The candidate function is abstracted as a
deterministic map from the argument actually passed to the outcome of calling
it (its averaged duration, a raised `TypeError`, or any other raised
exception); an exception that escapes the Python function uncaught is
`Except.error ()`, a caught failure reported as an absent sample is
`Except.ok none`. -/

/-- The value passed to the candidate function: the raw size, or
`list(range(n))`. -/
inductive PyValue : Type
  | intArg (n : ℕ)
  | listArg (l : List ℕ)
deriving DecidableEq

/-- Outcome of invoking the candidate function on a given argument. -/
inductive CallResult : Type
  | ok (avgTime : ℝ)
  | typeError
  | otherError

/-- Abstraction of the candidate function under test. -/
def CandidateFn : Type := PyValue → CallResult

/-- What `inspect.signature` reports about the declared type of the first
parameter: `int`, a bare `list`/`typing.Sequence`, a generic alias whose
`__origin__` is `list`/`typing.Sequence`, or anything else (including no
annotation). -/
inductive HintKind : Type
  | intHint
  | seqHint
  | genericSeqHint
  | otherHint
deriving DecidableEq

/-- The warm-up-plus-timed-loop of lines 60-67: with a deterministic
candidate the average equals the single-call duration; any exception is
caught by the enclosing `except Exception` and reported as `None`. -/
def execDirect (r : CallResult) : Option ℝ :=
  match r with
  | .ok t => some t
  | .typeError => none
  | .otherError => none

/-- Step 1 of `measure_execution_time`: choose `input_data` from the declared
type of the first parameter.  `none` for the signature means inspection raised
(`ValueError`/`TypeError`); an empty parameter list or an unrecognised hint
leaves `input_data = None`. -/
def decideInput (sig : Option (List HintKind)) (input_size : ℕ) : Option PyValue :=
  match sig with
  | none => none
  | some [] => none
  | some (h :: _) =>
    match h with
    | .intHint => some (.intArg input_size)
    | .seqHint => some (.listArg (List.range input_size))
    | .genericSeqHint => some (.listArg (List.range input_size))
    | .otherHint => none

/-- `_measure_heuristic(func, input_size, iterations)` from the source: try
the raw integer; on `TypeError` retry with `list(range(input_size))`.  A
non-`TypeError` exception from the first attempt is caught by
`except Exception` and reported as `None`; an exception raised during the
retry happens inside the `except TypeError:` handler, so the sibling
`except Exception` clause does NOT catch it and it propagates uncaught. -/
def _measure_heuristic (func : CandidateFn) (input_size : ℕ) : Except Unit (Option ℝ) :=
  match func (.intArg input_size) with
  | .ok t => .ok (some t)
  | .typeError =>
    match func (.listArg (List.range input_size)) with
    | .ok t => .ok (some t)
    | .typeError => .error ()
    | .otherError => .error ()
  | .otherError => .ok none

/-- `measure_execution_time(func, input_size, iterations)` from the source:
declared-type dispatch first; heuristic fallback only when no input could be
determined; in the declared-type branch every exception is caught
(`except Exception: return None`). -/
def measure_execution_time (sig : Option (List HintKind)) (func : CandidateFn)
    (input_size : ℕ) : Except Unit (Option ℝ) :=
  match decideInput sig input_size with
  | none => _measure_heuristic func input_size
  | some v => .ok (execDirect (func v))

/-! ## CLI driver (`main`) -/

/-- Observable output events of `main` (semantic lines only). -/
inductive Event : Type
  | row (n : ℕ) (t : ℝ)
  | failMsg
  | insufficientMsg
  | verdict (name : String) (rmse : Option ℝ)

/-- The fixed calibration sizes of `main`. -/
def mainSizes : List ℕ := [100, 500, 1000, 2000, 5000]

/-- The measurement loop of `main`: on the first absent sample print the
failure message and `break`. -/
noncomputable def runSizes (meas : ℕ → Option ℝ) : List ℕ → List Event × List ℝ
  | [] => ([], [])
  | n :: rest =>
    match meas n with
    | none => ([.failMsg], [])
    | some t =>
      (.row n t :: (runSizes meas rest).1, t :: (runSizes meas rest).2)

/-- The portion of `main` after a successful import, with the measurement of
one size abstracted as `meas`.  Returns the emitted events and the process
exit code (`main` falls off the end normally in every path below, so the
exit code is 0; `sys.exit(1)` is reached only for argument/import errors). -/
noncomputable def mainRun (meas : ℕ → Option ℝ) : List Event × ℕ :=
  let p := runSizes meas mainSizes
  if p.2.length = mainSizes.length then
    match detect_complexity (mainSizes.map fun n => (n : ℝ)) p.2 with
    | (none, _) => (p.1 ++ [.insufficientMsg], 0)
    | (some name, r) => (p.1 ++ [.verdict name r], 0)
  else (p.1, 0)

/-! ## List arithmetic helpers -/

lemma sum_nonneg_of_mem {l : List ℝ} (h : ∀ x ∈ l, 0 ≤ x) : 0 ≤ l.sum := by
  induction l with
  | nil => simp
  | cons a t ih =>
    simp only [List.sum_cons]
    have ha := h a (by simp)
    have ht := ih fun x hx => h x (by simp [hx])
    linarith

lemma sum_eq_zero_mem {l : List ℝ} (h : ∀ x ∈ l, 0 ≤ x) (hs : l.sum = 0) :
    ∀ x ∈ l, x = 0 := by
  induction l with
  | nil => simp
  | cons a t ih =>
    intro x hx
    have ha := h a (by simp)
    have ht : 0 ≤ t.sum := sum_nonneg_of_mem fun y hy => h y (by simp [hy])
    have hsum : a + t.sum = 0 := by simpa using hs
    have ha0 : a = 0 := by linarith
    have hts : t.sum = 0 := by linarith
    rcases List.mem_cons.mp hx with rfl | hx'
    · exact ha0
    · exact ih (fun y hy => h y (by simp [hy])) hts x hx'

lemma single_le_sum_mem {l : List ℝ} {x : ℝ} (h : ∀ y ∈ l, 0 ≤ y) (hx : x ∈ l) :
    x ≤ l.sum :=
  List.single_le_sum h x hx

lemma sum_map_affine (l : List ℝ) (f : ℝ → ℝ) (a b : ℝ) :
    (l.map fun x => a * f x + b).sum = a * (l.map f).sum + l.length * b := by
  induction l with
  | nil => simp
  | cons y t ih =>
    simp only [List.map_cons, List.sum_cons, List.length_cons, ih]
    push_cast
    ring

lemma sum_map_mul_affine (l : List ℝ) (f : ℝ → ℝ) (a b : ℝ) :
    (l.map fun x => f x * (a * f x + b)).sum
      = a * (l.map fun x => f x * f x).sum + b * (l.map f).sum := by
  induction l with
  | nil => simp
  | cons y t ih =>
    simp only [List.map_cons, List.sum_cons, ih]
    ring

lemma sum_map_sq_sub (l : List ℝ) (c : ℝ) :
    (l.map fun x => (x - c) * (x - c)).sum
      = (l.map fun x => x * x).sum - 2 * c * l.sum + l.length * (c * c) := by
  induction l with
  | nil => simp
  | cons y t ih =>
    simp only [List.map_cons, List.sum_cons, List.length_cons, ih]
    push_cast
    ring

lemma foldl_min_of_le (t : ℝ) (l : List ℝ) (h : ∀ x ∈ l, t ≤ x) :
    l.foldl min t = t := by
  induction l generalizing t with
  | nil => rfl
  | cons a s ih =>
    have ha : min t a = t := min_eq_left (h a (by simp))
    simp only [List.foldl_cons, ha]
    exact ih t fun x hx => h x (by simp [hx])

lemma foldl_min_le (l : List ℝ) (t : ℝ) : l.foldl min t ≤ t := by
  induction l generalizing t with
  | nil => simp
  | cons a s ih =>
    simp only [List.foldl_cons]
    exact le_trans (ih (min t a)) (min_le_left t a)

lemma foldl_min_le_mem {l : List ℝ} {x : ℝ} (hx : x ∈ l) (t : ℝ) :
    l.foldl min t ≤ x := by
  induction l generalizing t with
  | nil => simp at hx
  | cons a s ih =>
    simp only [List.foldl_cons]
    rcases List.mem_cons.mp hx with rfl | hx'
    · exact le_trans (foldl_min_le s (min t x)) (min_le_right t x)
    · exact ih hx' (min t a)

lemma listMin_le_mem {l : List ℝ} {x : ℝ} (hx : x ∈ l) : listMin l ≤ x := by
  cases l with
  | nil => simp at hx
  | cons a s =>
    rcases List.mem_cons.mp hx with rfl | hx'
    · exact foldl_min_le s x
    · exact foldl_min_le_mem hx' a

lemma listMin_sorted_head (a : ℝ) (l : List ℝ) (h : ∀ x ∈ l, a ≤ x) :
    listMin (a :: l) = a :=
  foldl_min_of_le a l h

lemma zip_self_map (l : List ℝ) (f g : ℝ → ℝ) :
    (l.map f).zip (l.map g) = l.map fun x => (f x, g x) :=
  List.zip_map' f g l

/-! ## `rmseOf` basics -/

lemma rmseOf_nonneg (rs : List ℝ) : 0 ≤ rmseOf rs := Real.sqrt_nonneg _

lemma rmseOf_map_zero (l : List α) (f : α → ℝ) (h : ∀ x ∈ l, f x = 0) :
    rmseOf (l.map f) = 0 := by
  have hmap : (l.map f).map (fun r => r * r) = l.map fun _ => (0 : ℝ) := by
    rw [List.map_map]
    exact List.map_congr_left fun x hx => by simp [h x hx]
  rw [rmseOf, hmap]
  have : (l.map fun _ => (0 : ℝ)).sum = 0 := by
    induction l with
    | nil => simp
    | cons a t ih => simp [ih]
  rw [fmean, this, zero_div, Real.sqrt_zero]

lemma rmseOf_eq_zero_mem {rs : List ℝ} (h : rmseOf rs = 0) : ∀ r ∈ rs, r = 0 := by
  intro r hr
  have hnn : ∀ x ∈ rs.map fun r => r * r, (0 : ℝ) ≤ x := by
    intro x hx
    rcases List.mem_map.mp hx with ⟨y, _, rfl⟩
    exact mul_self_nonneg y
  have hsum : 0 ≤ (rs.map fun r => r * r).sum := sum_nonneg_of_mem hnn
  have hlen : (0 : ℝ) ≤ (rs.map fun r => r * r).length := by positivity
  have hmean : fmean (rs.map fun r => r * r) ≤ 0 := by
    by_contra hpos
    push_neg at hpos
    have := Real.sqrt_pos.mpr hpos
    rw [rmseOf] at h
    linarith
  have hmean0 : (rs.map fun r => r * r).sum = 0 := by
    rw [fmean] at hmean
    rcases Nat.eq_zero_or_pos rs.length with h0 | hlpos
    · have : rs = [] := List.length_eq_zero.mp h0
      subst this; simp
    · have hlen' : (0 : ℝ) < (rs.map fun r => r * r).length := by
        simp only [List.length_map]
        exact_mod_cast hlpos
      have := (div_le_iff₀ hlen').mp hmean
      nlinarith
  have := sum_eq_zero_mem hnn hmean0 (r * r) (List.mem_map.mpr ⟨r, hr, rfl⟩)
  exact mul_self_eq_zero.mp this

lemma rmseOf_pos_of_mem {rs : List ℝ} {r : ℝ} (hr : r ∈ rs) (hne : r ≠ 0) :
    0 < rmseOf rs := by
  rcases lt_or_eq_of_le (rmseOf_nonneg rs) with h | h
  · exact h
  · exact absurd (rmseOf_eq_zero_mem h.symm r hr) hne

/-! ## Structure of `_compute_residuals` -/

lemma compute_residuals_const (ts xs : List ℝ) (h : allSame xs) :
    _compute_residuals ts xs = some (ts.map fun t => t - fmean ts) := by
  rw [_compute_residuals, if_pos h]

lemma compute_residuals_none_iff (ts xs : List ℝ) (h : ¬ allSame xs) :
    _compute_residuals ts xs = none ↔
      |regDenom xs| < 1e-12 ∨ regSlope ts xs ≤ 1e-12 := by
  rw [_compute_residuals, if_neg h]
  constructor
  · intro hnone
    by_cases h1 : |regDenom xs| < 1e-12
    · exact Or.inl h1
    · rw [if_neg h1] at hnone
      by_cases h2 : regSlope ts xs ≤ 1e-12
      · exact Or.inr h2
      · rw [if_neg h2] at hnone
        exact absurd hnone (by simp)
  · intro hor
    rcases hor with h1 | h2
    · rw [if_pos h1]
    · by_cases h1 : |regDenom xs| < 1e-12
      · rw [if_pos h1]
      · rw [if_neg h1, if_pos h2]

lemma compute_residuals_fit (ts xs : List ℝ) (h : ¬ allSame xs)
    (h1 : ¬ |regDenom xs| < 1e-12) (h2 : ¬ regSlope ts xs ≤ 1e-12) :
    _compute_residuals ts xs
      = some ((ts.zip xs).map fun p =>
          p.1 - (regSlope ts xs * p.2 + regIntercept ts xs)) := by
  rw [_compute_residuals, if_neg h, if_neg h1, if_neg h2]

lemma compute_residuals_some_reg {ts xs rs : List ℝ} (h : ¬ allSame xs)
    (hs : _compute_residuals ts xs = some rs) :
    1e-12 ≤ |regDenom xs| ∧ 1e-12 < regSlope ts xs ∧
      rs = (ts.zip xs).map fun p =>
        p.1 - (regSlope ts xs * p.2 + regIntercept ts xs) := by
  rw [_compute_residuals, if_neg h] at hs
  by_cases h1 : |regDenom xs| < 1e-12
  · rw [if_pos h1] at hs
    exact absurd hs (by simp)
  · rw [if_neg h1] at hs
    by_cases h2 : regSlope ts xs ≤ 1e-12
    · rw [if_pos h2] at hs
      exact absurd hs (by simp)
    · rw [if_neg h2] at hs
      exact ⟨not_lt.mp h1, not_le.mp h2, (Option.some_inj.mp hs).symm⟩

lemma regDenom_eq (xs : List ℝ) :
    regDenom xs
      = (xs.length : ℝ) * (xs.map fun x => (x - fmean xs) * (x - fmean xs)).sum := by
  rcases List.eq_nil_or_concat xs with rfl | _
  · simp [regDenom]
  · have hne : xs ≠ [] := by
      rintro rfl
      simp at *
    have hn : (0 : ℝ) < xs.length := by
      have := List.length_pos.mpr hne
      exact_mod_cast this
    rw [regDenom, sum_map_sq_sub, fmean]
    field_simp
    ring

lemma regDenom_nonneg (xs : List ℝ) : 0 ≤ regDenom xs := by
  rw [regDenom_eq]
  have h1 : (0 : ℝ) ≤ xs.length := by positivity
  refine mul_nonneg h1 (sum_nonneg_of_mem ?_)
  intro x hx
  rcases List.mem_map.mp hx with ⟨y, _, rfl⟩
  exact mul_self_nonneg _

lemma regDenom_ge {xs : List ℝ} {x y d : ℝ} (hx : x ∈ xs) (hy : y ∈ xs)
    (hd : 0 < d) (hxy : d ≤ y - x) : d * d / 4 ≤ regDenom xs := by
  set m := fmean xs with hm
  have hnn : ∀ z ∈ xs.map fun x => (x - m) * (x - m), (0 : ℝ) ≤ z := by
    intro z hz
    rcases List.mem_map.mp hz with ⟨w, _, rfl⟩
    exact mul_self_nonneg _
  have hdev : d * d / 4 ≤ (xs.map fun x => (x - m) * (x - m)).sum := by
    rcases le_or_lt m ((x + y) / 2) with hcase | hcase
    · have h1 : d / 2 ≤ y - m := by linarith
      have h2 : d * d / 4 ≤ (y - m) * (y - m) := by nlinarith
      have h3 : (y - m) * (y - m) ∈ xs.map fun x => (x - m) * (x - m) :=
        List.mem_map.mpr ⟨y, hy, rfl⟩
      exact le_trans h2 (single_le_sum_mem hnn h3)
    · have h1 : x - m ≤ -(d / 2) := by linarith
      have h2 : d * d / 4 ≤ (x - m) * (x - m) := by nlinarith
      have h3 : (x - m) * (x - m) ∈ xs.map fun x => (x - m) * (x - m) :=
        List.mem_map.mpr ⟨x, hx, rfl⟩
      exact le_trans h2 (single_le_sum_mem hnn h3)

  have hlen : (1 : ℝ) ≤ xs.length := by
    have := List.length_pos.mpr (List.ne_nil_of_mem hx)
    exact_mod_cast this
  rw [regDenom_eq, ← hm]
  have hs0 : (0 : ℝ) ≤ (xs.map fun x => (x - m) * (x - m)).sum :=
    le_trans (by positivity) hdev
  nlinarith

lemma regSlope_exact (l : List ℝ) (f : ℝ → ℝ) (a b : ℝ)
    (hd : regDenom (l.map f) ≠ 0) :
    regSlope (l.map fun x => a * f x + b) (l.map f) = a ∧
      regIntercept (l.map fun x => a * f x + b) (l.map f) = b := by
  have hn0 : l ≠ [] := by
    rintro rfl
    simp [regDenom] at hd
  have hn : (0 : ℝ) < l.length := by
    have := List.length_pos.mpr hn0
    exact_mod_cast this
  have hzip : ((l.map f).zip (l.map fun x => a * f x + b))
      = l.map fun x => (f x, a * f x + b) := zip_self_map l f _
  have hxy : (((l.map f).zip (l.map fun x => a * f x + b)).map fun p => p.1 * p.2).sum
      = a * (l.map fun x => f x * f x).sum + b * (l.map f).sum := by
    rw [hzip, List.map_map]
    exact sum_map_mul_affine l f a b
  have hts : (l.map fun x => a * f x + b).sum = a * (l.map f).sum + l.length * b :=
    sum_map_affine l f a b
  have hxx : ((l.map f).map fun x => x * x).sum = (l.map fun x => f x * f x).sum := by
    rw [List.map_map]
    rfl
  have hdenom : regDenom (l.map f)
      = (l.length : ℝ) * (l.map fun x => f x * f x).sum
        - (l.map f).sum * (l.map f).sum := by
    rw [regDenom, hxx, List.length_map]
  have hslope : regSlope (l.map fun x => a * f x + b) (l.map f) = a := by
    rw [regSlope, hxy, hts, List.length_map, div_eq_iff hd, hdenom]
    ring
  refine ⟨hslope, ?_⟩
  rw [regIntercept, hslope, hts, List.length_map]
  field_simp

lemma compute_residuals_exact (l : List ℝ) (f : ℝ → ℝ) (a b : ℝ)
    (hne : ¬ allSame (l.map f)) (hdenom : ¬ |regDenom (l.map f)| < 1e-12)
    (ha : 1e-12 < a) :
    _compute_residuals (l.map fun x => a * f x + b) (l.map f)
      = some (l.map fun _ => (0 : ℝ)) := by
  have hd0 : regDenom (l.map f) ≠ 0 := by
    intro h
    rw [h] at hdenom
    simp at hdenom
    linarith [hdenom]
  obtain ⟨hsl, hint⟩ := regSlope_exact l f a b hd0
  have h2 : ¬ regSlope (l.map fun x => a * f x + b) (l.map f) ≤ 1e-12 := by
    rw [hsl]
    linarith
  rw [compute_residuals_fit _ _ hne hdenom h2, hsl, hint]
  congr 1
  have hzip : ((l.map fun x => a * f x + b).zip (l.map f))
      = l.map fun x => (a * f x + b, f x) := zip_self_map l _ f
  rw [hzip, List.map_map]
  exact List.map_congr_left fun x _ => by simp

/-! ## Convexity toolkit

An exact least-squares fit with zero RMSE forces the data to lie on the
fitted curve; for three strictly increasing abscissae this contradicts
strict convexity of the discrepancy between the two curve families.  These
lemmas package that argument. -/

lemma convexOn_affine (s : Set ℝ) (hs : Convex ℝ s) (p q : ℝ) :
    ConvexOn ℝ s fun u => p * u + q := by
  refine ⟨hs, fun x _ y _ a b _ _ hab => ?_⟩
  simp only [smul_eq_mul]
  have : a * (p * x + q) + b * (p * y + q) = p * (a * x + b * y) + q := by
    linear_combination q * hab
  rw [this]

lemma convexOn_const_mul {s : Set ℝ} {f : ℝ → ℝ} {c : ℝ} (hc : 0 ≤ c)
    (hf : ConvexOn ℝ s f) : ConvexOn ℝ s fun u => c * f u := by
  refine ⟨hf.1, fun x hx y hy a b ha hb hab => ?_⟩
  have h := hf.2 hx hy ha hb hab
  simp only [smul_eq_mul] at h ⊢
  nlinarith [mul_le_mul_of_nonneg_left h hc]

lemma strictConvexOn_const_mul {s : Set ℝ} {f : ℝ → ℝ} {c : ℝ} (hc : 0 < c)
    (hf : StrictConvexOn ℝ s f) : StrictConvexOn ℝ s fun u => c * f u := by
  refine ⟨hf.1, fun x hx y hy hne a b ha hb hab => ?_⟩
  have h := hf.2 hx hy hne ha hb hab
  simp only [smul_eq_mul] at h ⊢
  nlinarith [mul_lt_mul_of_pos_left h hc]

lemma strictConvexOn_neg_log : StrictConvexOn ℝ (Set.Ioi 0) fun u => -Real.log u := by
  have := strictConcaveOn_log_Ioi.neg
  simpa [Pi.neg_def] using this

lemma strictConvexOn_mul_log_Ioi :
    StrictConvexOn ℝ (Set.Ioi 0) fun u => u * Real.log u :=
  strictConvexOn_mul_log.subset Set.Ioi_subset_Ici_self (convex_Ioi 0)

lemma strictConvexOn_combo1 (p q r s : ℝ) (hp : 0 < p) (hq : 0 ≤ q) :
    StrictConvexOn ℝ (Set.Ioi 0)
      fun u => p * (u * Real.log u) + q * (-Real.log u) + (r * u + s) := by
  have h1 := strictConvexOn_const_mul hp strictConvexOn_mul_log_Ioi
  have h2 := convexOn_const_mul hq strictConvexOn_neg_log.convexOn
  have h3 := convexOn_affine _ (convex_Ioi (0 : ℝ)) r s
  have h := (h1.add_convexOn h2).add_convexOn h3
  simpa [Pi.add_def] using h

lemma strictConvexOn_combo2 (q r s : ℝ) (hq : 0 < q) :
    StrictConvexOn ℝ (Set.Ioi 0)
      fun u => q * (-Real.log u) + (r * u + s) := by
  have h2 := strictConvexOn_const_mul hq strictConvexOn_neg_log
  have h3 := convexOn_affine _ (convex_Ioi (0 : ℝ)) r s
  have h := h2.add_convexOn h3
  simpa [Pi.add_def] using h

/-- A strictly convex function cannot take the same value at three strictly
increasing points. -/
lemma no_three_const {s : Set ℝ} {f : ℝ → ℝ} (hf : StrictConvexOn ℝ s f)
    {x y z d : ℝ} (hx : x ∈ s) (hz : z ∈ s) (hxy : x < y) (hyz : y < z)
    (h0 : f x = d) (h1 : f y = d) (h2 : f z = d) : False := by
  have hxz : x ≠ z := ne_of_lt (hxy.trans hyz)
  have hzx : (0 : ℝ) < z - x := by linarith
  have ha : 0 < (z - y) / (z - x) := div_pos (by linarith) hzx
  have hb : 0 < (y - x) / (z - x) := div_pos (by linarith) hzx
  have hab : (z - y) / (z - x) + (y - x) / (z - x) = 1 := by
    field_simp
  have hcomb : ((z - y) / (z - x)) • x + ((y - x) / (z - x)) • z = y := by
    simp only [smul_eq_mul]
    field_simp
    ring
  have hlt := hf.2 hx hz hxz ha hb hab
  rw [hcomb, h0, h2] at hlt
  rw [h1] at hlt
  simp only [smul_eq_mul] at hlt
  have heq : (z - y) / (z - x) * d + (y - x) / (z - x) * d = d := by
    linear_combination d * hab
  linarith

lemma no_log_fit_of_linear_data {x0 x1 x2 a b c : ℝ} (h0 : 0 < x0)
    (h01 : x0 < x1) (h12 : x1 < x2) (ha : 0 < a) (_hc : 0 < c)
    (e0 : x0 / c = a * Real.log x0 + b) (e1 : x1 / c = a * Real.log x1 + b)
    (e2 : x2 / c = a * Real.log x2 + b) : False := by
  have hconv := strictConvexOn_combo2 a (1 / c) (-b) ha
  refine no_three_const hconv (x := x0) (y := x1) (z := x2) (d := 0)
    h0 (by linarith : (0:ℝ) < x2) h01 h12 ?_ ?_ ?_
  · show a * (-Real.log x0) + (1 / c * x0 + -b) = 0
    rw [one_div_mul_eq_div c x0]
    linarith
  · show a * (-Real.log x1) + (1 / c * x1 + -b) = 0
    rw [one_div_mul_eq_div c x1]
    linarith
  · show a * (-Real.log x2) + (1 / c * x2 + -b) = 0
    rw [one_div_mul_eq_div c x2]
    linarith

lemma no_nlogn_fit_of_linear_data {x0 x1 x2 a b c : ℝ} (h0 : 0 < x0)
    (h01 : x0 < x1) (h12 : x1 < x2) (ha : 0 < a) (_hc : 0 < c)
    (e0 : x0 / c = a * (x0 * Real.log x0) + b)
    (e1 : x1 / c = a * (x1 * Real.log x1) + b)
    (e2 : x2 / c = a * (x2 * Real.log x2) + b) : False := by
  have hconv := strictConvexOn_combo1 a 0 (-(1 / c)) b ha le_rfl
  refine no_three_const hconv (x := x0) (y := x1) (z := x2) (d := 0)
    h0 (by linarith : (0:ℝ) < x2) h01 h12 ?_ ?_ ?_
  · show a * (x0 * Real.log x0) + 0 * (-Real.log x0) + (-(1 / c) * x0 + b) = 0
    rw [neg_mul, one_div_mul_eq_div c x0]
    linarith
  · show a * (x1 * Real.log x1) + 0 * (-Real.log x1) + (-(1 / c) * x1 + b) = 0
    rw [neg_mul, one_div_mul_eq_div c x1]
    linarith
  · show a * (x2 * Real.log x2) + 0 * (-Real.log x2) + (-(1 / c) * x2 + b) = 0
    rw [neg_mul, one_div_mul_eq_div c x2]
    linarith

lemma no_log_fit_of_nlogn_data {x0 x1 x2 a b c : ℝ} (h0 : 0 < x0)
    (h01 : x0 < x1) (h12 : x1 < x2) (ha : 0 < a) (hc : 0 < c)
    (e0 : x0 * Real.log x0 / c = a * Real.log x0 + b)
    (e1 : x1 * Real.log x1 / c = a * Real.log x1 + b)
    (e2 : x2 * Real.log x2 / c = a * Real.log x2 + b) : False := by
  have hconv := strictConvexOn_combo1 (1 / c) a 0 (-b) (by positivity) ha.le
  refine no_three_const hconv (x := x0) (y := x1) (z := x2) (d := 0)
    h0 (by linarith : (0:ℝ) < x2) h01 h12 ?_ ?_ ?_
  · show 1 / c * (x0 * Real.log x0) + a * (-Real.log x0) + (0 * x0 + -b) = 0
    rw [one_div_mul_eq_div c (x0 * Real.log x0)]
    linarith
  · show 1 / c * (x1 * Real.log x1) + a * (-Real.log x1) + (0 * x1 + -b) = 0
    rw [one_div_mul_eq_div c (x1 * Real.log x1)]
    linarith
  · show 1 / c * (x2 * Real.log x2) + a * (-Real.log x2) + (0 * x2 + -b) = 0
    rw [one_div_mul_eq_div c (x2 * Real.log x2)]
    linarith

lemma no_linear_fit_of_nlogn_data {x0 x1 x2 a b c : ℝ} (h0 : 0 < x0)
    (h01 : x0 < x1) (h12 : x1 < x2) (hc : 0 < c)
    (e0 : x0 * Real.log x0 / c = a * x0 + b)
    (e1 : x1 * Real.log x1 / c = a * x1 + b)
    (e2 : x2 * Real.log x2 / c = a * x2 + b) : False := by
  have hconv := strictConvexOn_combo1 (1 / c) 0 (-a) (-b) (by positivity) le_rfl
  refine no_three_const hconv (x := x0) (y := x1) (z := x2) (d := 0)
    h0 (by linarith : (0:ℝ) < x2) h01 h12 ?_ ?_ ?_
  · show 1 / c * (x0 * Real.log x0) + 0 * (-Real.log x0) + (-a * x0 + -b) = 0
    rw [one_div_mul_eq_div c (x0 * Real.log x0)]
    have : -a * x0 = -(a * x0) := by ring
    rw [this]
    linarith
  · show 1 / c * (x1 * Real.log x1) + 0 * (-Real.log x1) + (-a * x1 + -b) = 0
    rw [one_div_mul_eq_div c (x1 * Real.log x1)]
    have : -a * x1 = -(a * x1) := by ring
    rw [this]
    linarith
  · show 1 / c * (x2 * Real.log x2) + 0 * (-Real.log x2) + (-a * x2 + -b) = 0
    rw [one_div_mul_eq_div c (x2 * Real.log x2)]
    have : -a * x2 = -(a * x2) := by ring
    rw [this]
    linarith

/-! ## Stepping lemmas for `_score_models` -/

lemma scoreStep_skip {ts : List ℝ} (hts : ts ≠ [])
    (st : Option (String × ℝ) × (String → Option ℝ)) (m : String × List ℝ)
    (h : _compute_residuals ts m.2 = none) : scoreStep ts st m = st := by
  simp only [scoreStep, if_neg hts, h]

lemma scoreStep_first {ts : List ℝ} (hts : ts ≠ []) (sc : String → Option ℝ)
    {name : String} {xs : List ℝ} {rs : List ℝ}
    (h : _compute_residuals ts xs = some rs) :
    scoreStep ts (none, sc) (name, xs)
      = (some (name, rmseOf rs),
         fun n' => if n' = name then some (rmseOf rs) else sc n') := by
  simp only [scoreStep, if_neg hts, h]

lemma scoreStep_win {ts : List ℝ} (hts : ts ≠ []) (sc : String → Option ℝ)
    {name : String} {xs : List ℝ} {rs : List ℝ} {bf : String} {bs : ℝ}
    (h : _compute_residuals ts xs = some rs)
    (hw : rmseOf rs < bs - (if 0 < bs then (0.05 : ℝ) * bs else 1e-9)) :
    scoreStep ts (some (bf, bs), sc) (name, xs)
      = (some (name, rmseOf rs),
         fun n' => if n' = name then some (rmseOf rs) else sc n') := by
  simp only [scoreStep, if_neg hts, h]
  rw [if_pos hw]

lemma scoreStep_keep {ts : List ℝ} (hts : ts ≠ []) (sc : String → Option ℝ)
    {name : String} {xs : List ℝ} {rs : List ℝ} {bf : String} {bs : ℝ}
    (h : _compute_residuals ts xs = some rs)
    (hw : ¬ rmseOf rs < bs - (if 0 < bs then (0.05 : ℝ) * bs else 1e-9))
    (ht : ¬ (|rmseOf rs - bs| ≤ (if 0 < bs then (0.05 : ℝ) * bs else 1e-9) ∧
        model_priority name < model_priority bf)) :
    scoreStep ts (some (bf, bs), sc) (name, xs)
      = (some (bf, bs),
         fun n' => if n' = name then some (rmseOf rs) else sc n') := by
  simp only [scoreStep, if_neg hts, h]
  rw [if_neg hw, if_neg ht]

lemma scoreStep_some_any {ts : List ℝ} (hts : ts ≠ []) (sc : String → Option ℝ)
    {name : String} {xs : List ℝ} {rs : List ℝ} {bf : String} {bs : ℝ}
    (h : _compute_residuals ts xs = some rs) :
    ∃ bf' bs', scoreStep ts (some (bf, bs), sc) (name, xs)
        = (some (bf', bs'),
           fun n' => if n' = name then some (rmseOf rs) else sc n') ∧
      (bs' = bs ∨ bs' = rmseOf rs) ∧ (bf' = bf ∨ bf' = name) := by
  by_cases hw : rmseOf rs < bs - (if 0 < bs then (0.05 : ℝ) * bs else 1e-9)
  · exact ⟨name, rmseOf rs, scoreStep_win hts sc h hw, Or.inr rfl, Or.inr rfl⟩
  · by_cases ht : |rmseOf rs - bs| ≤ (if 0 < bs then (0.05 : ℝ) * bs else 1e-9) ∧
        model_priority name < model_priority bf
    · refine ⟨name, rmseOf rs, ?_, Or.inr rfl, Or.inr rfl⟩
      simp only [scoreStep, if_neg hts, h]
      rw [if_neg hw, if_pos ht]
    · exact ⟨bf, bs, scoreStep_keep hts sc h hw ht, Or.inl rfl, Or.inl rfl⟩

/-! ## `allSame` and list facts -/

lemma not_allSame_of_ne {l : List ℝ} {y : ℝ} (hy : y ∈ l) (hne : y ≠ l.headI) :
    ¬ allSame l := fun h => hne (h.2 y hy)

lemma allSame_map_const {l : List ℝ} (hl : l ≠ []) (c : ℝ) :
    allSame (l.map fun _ => c) := by
  refine ⟨by simpa using hl, ?_⟩
  intro y hy
  rcases List.mem_map.mp hy with ⟨x, _, rfl⟩
  cases l with
  | nil => simp at hl
  | cons a t => simp

lemma fmean_replicate {m : ℕ} (hm : m ≠ 0) (c : ℝ) :
    fmean (List.replicate m c) = c := by
  rw [fmean, List.sum_replicate, List.length_replicate, nsmul_eq_mul]
  have : (m : ℝ) ≠ 0 := Nat.cast_ne_zero.mpr hm
  field_simp

lemma mul_log_lt_mul_log {x y : ℝ} (hx : 1 ≤ x) (hxy : x < y) :
    x * Real.log x < y * Real.log y := by
  have hx0 : 0 < x := lt_of_lt_of_le one_pos hx
  have hy1 : 1 < y := lt_of_le_of_lt hx hxy
  have hlx : 0 ≤ Real.log x := Real.log_nonneg hx
  have hly : Real.log x < Real.log y := Real.log_lt_log hx0 hxy
  nlinarith [mul_pos (lt_trans one_pos hy1) (sub_pos.mpr hly),
    mul_nonneg (le_of_lt (sub_pos.mpr hxy)) hlx]

lemma minTime_pos (times : List ℝ) : 0 < minTime times := by
  rw [minTime]
  split_ifs with h
  · norm_num
  · exact lt_of_not_le h

/-! ## Tie-break helpers -/

lemma tie_break_none_left {ns ts : List ℝ} {sc : String → Option ℝ}
    (h : sc linName = none) : _tie_break_linear_vs_nlogn ns ts sc = none := by
  cases hsc : sc nlognName <;> simp [_tie_break_linear_vs_nlogn, h, hsc]

lemma tie_break_none_right {ns ts : List ℝ} {sc : String → Option ℝ}
    (h : sc nlognName = none) : _tie_break_linear_vs_nlogn ns ts sc = none := by
  cases hsc : sc linName <;> simp [_tie_break_linear_vs_nlogn, h, hsc]

lemma tie_break_none_of_gap {ns ts : List ℝ} {sc : String → Option ℝ} {l g : ℝ}
    (hl : sc linName = some l) (hg : sc nlognName = some g)
    (hgap : (0.05 : ℝ) * min l g < |l - g|) :
    _tie_break_linear_vs_nlogn ns ts sc = none := by
  simp only [_tie_break_linear_vs_nlogn, hl, hg]
  rw [if_pos hgap]

lemma tie_break_some_shape {ns ts : List ℝ} {sc : String → Option ℝ}
    {p : String × ℝ} (h : _tie_break_linear_vs_nlogn ns ts sc = some p) :
    p.1 = linName ∨ p.1 = nlognName := by
  rw [_tie_break_linear_vs_nlogn] at h
  rcases hl : sc linName with _ | l <;> rcases hg : sc nlognName with _ | g <;>
    rw [hl, hg] at h
  · exact absurd h (by simp)
  · exact absurd h (by simp)
  · exact absurd h (by simp)
  · split_ifs at h <;> simp_all
    · exact Or.inl (congrArg Prod.fst h.2).symm
    · exact Or.inr (congrArg Prod.fst h.2).symm

/-! ## Driver loop facts -/

lemma runSizes_fail {meas : ℕ → Option ℝ} {l : List ℕ}
    (h : ∃ n ∈ l, meas n = none) :
    Event.failMsg ∈ (runSizes meas l).1 ∧ (runSizes meas l).2.length < l.length := by
  induction l with
  | nil => simp at h
  | cons a t ih =>
    rcases h with ⟨n, hn, hnone⟩
    rw [runSizes]
    cases hma : meas a with
    | none => simp
    | some ta =>
      rcases List.mem_cons.mp hn with rfl | hnt
      · rw [hma] at hnone
        cases hnone
      · obtain ⟨h1, h2⟩ := ih ⟨n, hnt, hnone⟩
        refine ⟨by simp [h1], ?_⟩
        simp only [List.length_cons]
        omega

lemma runSizes_no_verdict (meas : ℕ → Option ℝ) (l : List ℕ) :
    ∀ name r, Event.verdict name r ∉ (runSizes meas l).1 := by
  induction l with
  | nil => simp [runSizes]
  | cons a t ih =>
    intro name r
    rw [runSizes]
    cases hma : meas a with
    | none => simp
    | some ta =>
      simp only [List.mem_cons]
      rintro (h | h)
      · cases h
      · exact ih name r h

/-! ## Claim C4 -/

/-- C4: with fewer than 3 timing samples `detect_complexity` returns the
normal no-verdict result `(None, None)` (it does not raise). -/
theorem detect_complexity_insufficient (n_values times : List ℝ)
    (h : times.length < 3) : detect_complexity n_values times = (none, none) := by
  rw [detect_complexity, if_pos h]

/-- Witness for C4 at a length-2 series. -/
theorem detect_complexity_insufficient_witness :
    detect_complexity [(100 : ℝ), 1000] [1e-6, 2e-6] = (none, none) :=
  detect_complexity_insufficient [(100 : ℝ), 1000] [1e-6, 2e-6] (by norm_num)

/-! ## Claim C9 -/

/-- C9: before fitting, every duration is divided by the (floored) minimum
duration; the divisor is always strictly positive (so normalization is
well defined for any series of durations `≥ 0`); the epsilon floor `1e-9`
is substituted exactly when the minimum observed duration is not positive,
in particular whenever a duration of exactly 0 occurs. -/
theorem normalization_wellDefined (times : List ℝ) (_h : ∀ t ∈ times, 0 ≤ t) :
    0 < minTime times ∧
    normalizeTimes times = times.map (fun t => t / minTime times) ∧
    ((0 : ℝ) ∈ times → minTime times = 1e-9) ∧
    (0 < listMin times → minTime times = listMin times) := by
  refine ⟨minTime_pos times, rfl, ?_, ?_⟩
  · intro h0
    rw [minTime, if_pos (listMin_le_mem h0)]
  · intro hpos
    rw [minTime, if_neg (not_le.mpr hpos)]

/-- Witness for C9 on a series containing an exact-zero duration. -/
theorem normalization_wellDefined_witness :
    0 < minTime [(0 : ℝ), 1, 2] ∧
    normalizeTimes [(0 : ℝ), 1, 2] = [(0 : ℝ), 1, 2].map (fun t => t / minTime [(0 : ℝ), 1, 2]) ∧
    ((0 : ℝ) ∈ [(0 : ℝ), 1, 2] → minTime [(0 : ℝ), 1, 2] = 1e-9) ∧
    (0 < listMin [(0 : ℝ), 1, 2] → minTime [(0 : ℝ), 1, 2] = listMin [(0 : ℝ), 1, 2]) :=
  normalization_wellDefined [(0 : ℝ), 1, 2] (by norm_num)

/-! ## Claim C8 -/

/-- C8: for a non-constant model the fitter returns no fit exactly when the
regression denominator is within `1e-12` of zero or the fitted slope is not
above `1e-12`; otherwise it returns the least-squares residuals
`t - (a*f(n) + b)`, whose RMSE is what `_score_models` records for the
model. -/
theorem curve_fitter_exclusion (ts xs : List ℝ) (h : ¬ allSame xs) (hts : ts ≠ []) :
    (_compute_residuals ts xs = none ↔
      |regDenom xs| < 1e-12 ∨ regSlope ts xs ≤ 1e-12) ∧
    (¬ (|regDenom xs| < 1e-12 ∨ regSlope ts xs ≤ 1e-12) →
      _compute_residuals ts xs
        = some ((ts.zip xs).map fun p =>
            p.1 - (regSlope ts xs * p.2 + regIntercept ts xs)) ∧
      ∀ st name, (scoreStep ts st (name, xs)).2 name
        = some (rmseOf ((ts.zip xs).map fun p =>
            p.1 - (regSlope ts xs * p.2 + regIntercept ts xs)))) := by
  refine ⟨compute_residuals_none_iff ts xs h, fun hnot => ?_⟩
  push_neg at hnot
  obtain ⟨h1, h2⟩ := hnot
  have hfit := compute_residuals_fit ts xs h (not_lt.mpr h1) (not_le.mpr h2)
  refine ⟨hfit, ?_⟩
  intro st name
  rcases st with ⟨best, sc⟩
  rcases best with _ | ⟨bf, bs⟩
  · rw [scoreStep_first hts sc hfit]
    simp
  · obtain ⟨bf', bs', heq, -, -⟩ :=
      @scoreStep_some_any ts hts sc name _ _ bf bs hfit
    rw [heq]
    simp

/-- Witness for C8 with a non-degenerate two-point fit. -/
theorem curve_fitter_exclusion_witness :
    (_compute_residuals [(1 : ℝ), 2, 3] [(1 : ℝ), 2, 10] = none ↔
      |regDenom [(1 : ℝ), 2, 10]| < 1e-12 ∨ regSlope [(1 : ℝ), 2, 3] [(1 : ℝ), 2, 10] ≤ 1e-12) ∧
    (¬ (|regDenom [(1 : ℝ), 2, 10]| < 1e-12 ∨
        regSlope [(1 : ℝ), 2, 3] [(1 : ℝ), 2, 10] ≤ 1e-12) →
      _compute_residuals [(1 : ℝ), 2, 3] [(1 : ℝ), 2, 10]
        = some (([(1 : ℝ), 2, 3].zip [(1 : ℝ), 2, 10]).map fun p =>
            p.1 - (regSlope [(1 : ℝ), 2, 3] [(1 : ℝ), 2, 10] * p.2
              + regIntercept [(1 : ℝ), 2, 3] [(1 : ℝ), 2, 10])) ∧
      ∀ st name, (scoreStep [(1 : ℝ), 2, 3] st (name, [(1 : ℝ), 2, 10])).2 name
        = some (rmseOf (([(1 : ℝ), 2, 3].zip [(1 : ℝ), 2, 10]).map fun p =>
            p.1 - (regSlope [(1 : ℝ), 2, 3] [(1 : ℝ), 2, 10] * p.2
              + regIntercept [(1 : ℝ), 2, 3] [(1 : ℝ), 2, 10])))) :=
  curve_fitter_exclusion [(1 : ℝ), 2, 3] [(1 : ℝ), 2, 10]
    (not_allSame_of_ne (y := 2) (by norm_num) (by norm_num)) (by simp)

/-! ## Claim C5 -/

/-- C5: a declared `int` first parameter receives the raw size, a declared
sequence first parameter (bare or generic) receives `list(range(n))` of
length exactly `n`, and whenever declared-type detection produces an input
the result is the direct timed execution of the candidate on that input —
the heuristic fallback is never consulted. -/
theorem declared_type_dispatch (rest : List HintKind) (f : CandidateFn) (n : ℕ) :
    measure_execution_time (some (.intHint :: rest)) f n
      = .ok (execDirect (f (.intArg n))) ∧
    measure_execution_time (some (.seqHint :: rest)) f n
      = .ok (execDirect (f (.listArg (List.range n)))) ∧
    measure_execution_time (some (.genericSeqHint :: rest)) f n
      = .ok (execDirect (f (.listArg (List.range n)))) ∧
    (List.range n).length = n ∧
    (∀ sig v, decideInput sig n = some v →
      measure_execution_time sig f n = .ok (execDirect (f v))) := by
  refine ⟨rfl, rfl, rfl, List.length_range n, ?_⟩
  intro sig v hv
  rw [measure_execution_time, hv]

/-! ## Claim C6 (code bug) -/

/-- A candidate that raises `TypeError` when called with the raw integer and
a non-type error (for example `ValueError`) when called with the synthesized
list: the failing input for claim C6. -/
def badCandidate : CandidateFn := fun v =>
  match v with
  | .intArg _ => .typeError
  | .listArg _ => .otherError

/-- C6: the first two legs of the claim hold (raw integer first, retry with
a synthesized sequence on a type mismatch, non-type errors of the first
attempt reported as an absent sample), but an error raised during the
sequence retry is NOT reported as an absent sample: it is raised inside the
`except TypeError:` handler, so the sibling `except Exception` clause does
not apply and the exception propagates uncaught out of
`measure_execution_time` — the code contradicts the specified hard-failure
handling. -/
theorem heuristic_retry_error_propagates :
    _measure_heuristic badCandidate 5 = .error () ∧
    measure_execution_time none badCandidate 5 = .error () ∧
    (∀ f : CandidateFn, ∀ n t, f (.intArg n) = .ok t →
      _measure_heuristic f n = .ok (some t)) ∧
    (∀ f : CandidateFn, ∀ n t, f (.intArg n) = .typeError →
      f (.listArg (List.range n)) = .ok t → _measure_heuristic f n = .ok (some t)) ∧
    (∀ f : CandidateFn, ∀ n, f (.intArg n) = .otherError →
      _measure_heuristic f n = .ok none) := by
  refine ⟨rfl, rfl, ?_, ?_, ?_⟩
  · intro f n t h
    rw [_measure_heuristic, h]
  · intro f n t h1 h2
    rw [_measure_heuristic, h1, h2]
  · intro f n h
    rw [_measure_heuristic, h]

/-! ## Claim C7 (corrected) -/

/-- C7 counterexample: when every measurement fails, `main` prints the
failure message and aborts the run, but the process exit code is 0
(`main` merely `break`s out of the loop and falls off the end; it never
calls `sys.exit` on this path) — refuting the claimed non-zero exit code. -/
theorem cli_failure_exit_code_zero :
    mainRun (fun _ => none) = ([Event.failMsg], 0) := by
  have hrun : runSizes (fun _ => none) mainSizes = ([Event.failMsg], []) := by
    rw [mainSizes]
    simp [runSizes]
  rw [mainRun, hrun]
  simp [mainSizes]

/-- C7 amended: when some size fails to measure, the driver prints the
human-readable failure message, aborts the run (no verdict event is ever
emitted), and the process exits with code 0. -/
theorem cli_failure_aborts_with_message (meas : ℕ → Option ℝ)
    (h : ∃ n ∈ mainSizes, meas n = none) :
    Event.failMsg ∈ (mainRun meas).1 ∧ (mainRun meas).2 = 0 ∧
    ∀ name r, Event.verdict name r ∉ (mainRun meas).1 := by
  obtain ⟨h1, h2⟩ := runSizes_fail h
  have hlen : ¬ (runSizes meas mainSizes).2.length = mainSizes.length :=
    Nat.ne_of_lt h2
  rw [mainRun]
  simp only [if_neg hlen]
  exact ⟨h1, by trivial, fun name r => runSizes_no_verdict meas mainSizes name r⟩

/-- Witness for the amended C7 at the always-failing measurement. -/
theorem cli_failure_aborts_with_message_witness :
    Event.failMsg ∈ (mainRun fun _ => none).1 ∧ (mainRun fun _ => none).2 = 0 ∧
    ∀ name r, Event.verdict name r ∉ (mainRun fun _ => none).1 :=
  cli_failure_aborts_with_message (fun _ => none)
    ⟨100, by rw [mainSizes]; simp, rfl⟩

/-! ## Constant-duration and rejection lemmas -/

lemma zip_replicate_right (xs : List ℝ) (v : ℝ) :
    xs.zip (List.replicate xs.length v) = xs.map fun x => (x, v) := by
  induction xs with
  | nil => rfl
  | cons a t ih => simp [List.replicate_succ, ih]

lemma sum_map_mul_right (l : List ℝ) (v : ℝ) :
    (l.map fun x => x * v).sum = l.sum * v := by
  induction l with
  | nil => simp
  | cons a t ih =>
    simp only [List.map_cons, List.sum_cons, ih]
    ring

lemma rmseOf_replicate_zero (m : ℕ) : rmseOf (List.replicate m (0 : ℝ)) = 0 := by
  rw [rmseOf, List.map_replicate]
  simp only [mul_zero]
  rw [fmean, List.sum_replicate]
  simp

/-- With constant (normalized) timings, any non-constant model is fitted with
slope exactly 0 and rejected. -/
lemma compute_residuals_replicate_none {m : ℕ} {v : ℝ} {xs : List ℝ}
    (hlen : xs.length = m) (hns : ¬ allSame xs) :
    _compute_residuals (List.replicate m v) xs = none := by
  by_cases hd : |regDenom xs| < 1e-12
  · rw [_compute_residuals, if_neg hns, if_pos hd]
  · have hslope : regSlope (List.replicate m v) xs = 0 := by
      rw [regSlope]
      subst hlen
      rw [zip_replicate_right, List.map_map]
      have h1 : (xs.map fun x => x * v).sum = xs.sum * v := sum_map_mul_right xs v
      have h2 : ((fun p : ℝ × ℝ => p.1 * p.2) ∘ fun x => (x, v)) = fun x => x * v := rfl
      rw [h2, h1, List.sum_replicate, nsmul_eq_mul]
      have : (xs.length : ℝ) * (xs.sum * v) - xs.sum * ((xs.length : ℝ) * v) = 0 := by
        ring
      rw [this, zero_div]
    rw [_compute_residuals, if_neg hns, if_neg hd, if_pos (by rw [hslope]; norm_num)]

/-- With the concrete normalized timings `[10/9, 10/9, 11/9, 1]` every
strictly increasing 4-point model is fitted with a negative slope and
rejected. -/
lemma compute_residuals_reject4 {x1 x2 x3 x4 : ℝ} (h12 : x1 < x2) (_h23 : x2 < x3)
    (h34 : x3 < x4) :
    _compute_residuals [10/9, 10/9, 11/9, 1] [x1, x2, x3, x4] = none := by
  have hns : ¬ allSame [x1, x2, x3, x4] :=
    not_allSame_of_ne (y := x2) (by simp) (by simp; intro h; linarith [h12, h.symm.le])
  by_cases hd : |regDenom [x1, x2, x3, x4]| < 1e-12
  · rw [_compute_residuals, if_neg hns, if_pos hd]
  · have hd0 : 0 < regDenom [x1, x2, x3, x4] := by
      rcases lt_or_eq_of_le (regDenom_nonneg [x1, x2, x3, x4]) with h | h
      · exact h
      · exfalso
        apply hd
        rw [← h]
        norm_num
    have hnum : (([x1, x2, x3, x4] : List ℝ).length : ℝ)
          * ((([x1, x2, x3, x4] : List ℝ).zip [10/9, 10/9, 11/9, 1]).map
              fun p => p.1 * p.2).sum
          - ([x1, x2, x3, x4] : List ℝ).sum * ([(10 : ℝ)/9, 10/9, 11/9, 1]).sum
        = 4/9 * (x3 - x4) := by
      simp [List.zip]
      ring
    have hslope : regSlope [10/9, 10/9, 11/9, 1] [x1, x2, x3, x4] < 0 := by
      rw [regSlope, hnum]
      exact div_neg_of_neg_of_pos (by nlinarith) hd0
    rw [_compute_residuals, if_neg hns, if_neg hd,
      if_pos (le_of_lt (lt_of_lt_of_le hslope (by norm_num)))]

/-- Once the constant model has been scored with RMSE 0 on constant
normalized timings, no later model can displace it. -/
lemma scoreStep_const_zero {m : ℕ} {v : ℝ} (hm : m ≠ 0)
    (sc : String → Option ℝ) (name : String) (xs : List ℝ) (hxs : xs.length = m) :
    ∃ sc', scoreStep (List.replicate m v) (some (constName, 0), sc) (name, xs)
      = (some (constName, 0), sc') := by
  have hts : List.replicate m v ≠ [] := by
    simp [hm]
  by_cases hsame : allSame xs
  · have hres : _compute_residuals (List.replicate m v) xs
        = some (List.replicate m (0 : ℝ)) := by
      rw [compute_residuals_const _ _ hsame, fmean_replicate hm, List.map_replicate]
      simp
    refine ⟨_, scoreStep_keep hts sc hres ?_ ?_⟩
    · rw [rmseOf_replicate_zero]
      rw [if_neg (lt_irrefl (0 : ℝ))]
      norm_num
    · rintro ⟨-, hp⟩
      have h0 : model_priority constName = 0 := rfl
      omega
  · exact ⟨sc, scoreStep_skip hts _ (name, xs)
      (compute_residuals_replicate_none hxs hsame)⟩

/-- Folding `scoreStep` over further models keeps the best fit defined, and
the final name is the initial one or one of the supplied model names. -/
lemma foldl_scoreStep_some {ts : List ℝ} (hts : ts ≠ [])
    (ms : List (String × List ℝ)) :
    ∀ (st : Option (String × ℝ) × (String → Option ℝ)) (bf : String) (bs : ℝ),
      st.1 = some (bf, bs) →
      ∃ bf' bs' sc', ms.foldl (scoreStep ts) st = (some (bf', bs'), sc') ∧
        (bf' = bf ∨ bf' ∈ ms.map Prod.fst) := by
  induction ms with
  | nil =>
    intro st bf bs h
    rcases st with ⟨best, sc⟩
    simp only at h
    exact ⟨bf, bs, sc, by simp [h], Or.inl rfl⟩
  | cons m rest ih =>
    intro st bf bs h
    rcases st with ⟨best, sc⟩
    simp only at h
    subst h
    rcases m with ⟨mname, mxs⟩
    rcases hres : _compute_residuals ts mxs with _ | rs
    · have hskip := scoreStep_skip hts (some (bf, bs), sc) (mname, mxs) hres
      rw [List.foldl_cons, hskip]
      obtain ⟨bf', bs', sc', heq, hor⟩ := ih (some (bf, bs), sc) bf bs rfl
      exact ⟨bf', bs', sc', heq, by
        rcases hor with h | h
        · exact Or.inl h
        · exact Or.inr (by simp [List.mem_cons]; right; simpa using h)⟩
    · obtain ⟨bf1, bs1, heq1, -, hname⟩ :=
        @scoreStep_some_any ts hts sc mname _ _ bf bs hres
      rw [List.foldl_cons, heq1]
      obtain ⟨bf', bs', sc', heq, hor⟩ := ih
        (some (bf1, bs1), fun n' => if n' = mname then some (rmseOf rs) else sc n')
        bf1 bs1 rfl
      refine ⟨bf', bs', sc', heq, ?_⟩
      rcases hor with h | h
      · rcases hname with h1 | h1
        · exact Or.inl (h.trans h1)
        · exact Or.inr (by simp [List.mem_cons]; left; exact h.trans h1)
      · exact Or.inr (by simp [List.mem_cons]; right; simpa using h)

/-! ## Characterizations of `detect_complexity` -/

lemma detect_complexity_eq (n_values times : List ℝ) (h3 : ¬ times.length < 3)
    {bf : String} {bs : ℝ} {sc : String → Option ℝ}
    (hsm : _score_models (normalizeTimes times) (models n_values) = (some (bf, bs), sc)) :
    detect_complexity n_values times
      = if bf = linName ∨ bf = nlognName then
          match _tie_break_linear_vs_nlogn n_values times sc with
          | some (tf, tsc) => (some tf, some tsc)
          | none => (some bf, some bs)
        else (some bf, some bs) := by
  rw [detect_complexity, if_neg h3, hsm]

lemma detect_complexity_eq_none (n_values times : List ℝ) (h3 : ¬ times.length < 3)
    {sc : String → Option ℝ}
    (hsm : _score_models (normalizeTimes times) (models n_values) = (none, sc)) :
    detect_complexity n_values times = (none, none) := by
  rw [detect_complexity, if_neg h3, hsm]

lemma const_not_linName : ¬ (constName = linName ∨ constName = nlognName) := by
  rw [constName, linName, nlognName]
  decide

/-! ## Claim C3 -/

/-- C3: for any size series paired with constant durations (length ≥ 3) the
verdict is the Constant model with RMSE 0; and on the concrete example
`sizes = [100, 1000, 5000, 10000]`, `times = [1e-6, 1e-6, 1.1e-6, 0.9e-6]`
the selected model is Constant. -/
theorem detect_constant (ns : List ℝ) (c : ℝ) (m : ℕ) (h3 : 3 ≤ m)
    (hlen : ns.length = m) :
    detect_complexity ns (List.replicate m c) = (some constName, some 0) ∧
    (detect_complexity [100, 1000, 5000, 10000]
      [1e-6, 1e-6, 1.1e-6, 0.9e-6]).1 = some constName := by
  constructor
  · -- general constant-duration part
    have hm0 : m ≠ 0 := by omega
    have hlen3 : ¬ (List.replicate m c).length < 3 := by
      simp only [List.length_replicate]
      omega
    have hnorm : normalizeTimes (List.replicate m c)
        = List.replicate m (c / minTime (List.replicate m c)) := by
      rw [normalizeTimes, List.map_replicate]
    have hts_ne : List.replicate m (c / minTime (List.replicate m c)) ≠ [] := by
      simp [hm0]
    have hns_ne : ns ≠ [] := by
      intro h
      rw [h] at hlen
      simp at hlen
      omega
    have hconst_same : allSame (ns.map fun _ => (1 : ℝ)) := allSame_map_const hns_ne 1
    have hres1 : _compute_residuals (List.replicate m (c / minTime (List.replicate m c)))
        (ns.map fun _ => (1 : ℝ)) = some (List.replicate m (0 : ℝ)) := by
      rw [compute_residuals_const _ _ hconst_same, fmean_replicate hm0, List.map_replicate]
      simp
    obtain ⟨scf, hsm⟩ : ∃ sc, _score_models (normalizeTimes (List.replicate m c))
        (models ns) = (some (constName, 0), sc) := by
      rw [hnorm, _score_models, models]
      simp only [List.foldl_cons, List.foldl_nil]
      rw [scoreStep_first hts_ne _ hres1, rmseOf_replicate_zero]
      obtain ⟨sc2, h2⟩ := scoreStep_const_zero hm0
        (fun n' => if n' = constName then some ((0 : ℝ)) else none) logName
        (ns.map fun n => if 0 < n then Real.log n else 0) (by simp [hlen])
      rw [h2]
      obtain ⟨sc3, h3'⟩ := scoreStep_const_zero hm0 sc2 linName ns hlen
      rw [h3']
      obtain ⟨sc4, h4⟩ := scoreStep_const_zero hm0 sc3 nlognName
        (ns.map fun n => if 0 < n then n * Real.log n else 0) (by simp [hlen])
      rw [h4]
      obtain ⟨sc5, h5⟩ := scoreStep_const_zero hm0 sc4 quadName
        (ns.map fun n => n ^ 2) (by simp [hlen])
      rw [h5]
      exact ⟨sc5, rfl⟩
    rw [detect_complexity_eq ns (List.replicate m c) hlen3 hsm,
      if_neg const_not_linName]
  · -- concrete example
    have hlen3 : ¬ ([(1e-6 : ℝ), 1e-6, 1.1e-6, 0.9e-6]).length < 3 := by simp
    have hmin : listMin [(1e-6 : ℝ), 1e-6, 1.1e-6, 0.9e-6] = 0.9e-6 := by
      rw [listMin]
      simp only [List.foldl_cons, List.foldl_nil]
      norm_num [min_def]
    have hnorm : normalizeTimes [(1e-6 : ℝ), 1e-6, 1.1e-6, 0.9e-6]
        = [10/9, 10/9, 11/9, 1] := by
      rw [normalizeTimes, minTime, hmin, if_neg (by norm_num)]
      simp only [List.map_cons, List.map_nil]
      norm_num
    have hts_ne : ([(10 : ℝ)/9, 10/9, 11/9, 1] : List ℝ) ≠ [] := by simp
    have hres1 : _compute_residuals [(10 : ℝ)/9, 10/9, 11/9, 1]
        ([(100 : ℝ), 1000, 5000, 10000].map fun _ => (1 : ℝ))
        = some [0, 0, 1/9, -(1/9)] := by
      rw [compute_residuals_const _ _ (allSame_map_const (by simp) 1)]
      have hf : fmean [(10 : ℝ)/9, 10/9, 11/9, 1] = 10/9 := by
        rw [fmean]
        norm_num
      rw [hf]
      simp only [List.map_cons, List.map_nil]
      norm_num
    have hlog1 : (0 : ℝ) < Real.log 100 := Real.log_pos (by norm_num)
    have hlog12 : Real.log (100 : ℝ) < Real.log 1000 :=
      Real.log_lt_log (by norm_num) (by norm_num)
    have hlog23 : Real.log (1000 : ℝ) < Real.log 5000 :=
      Real.log_lt_log (by norm_num) (by norm_num)
    have hlog34 : Real.log (5000 : ℝ) < Real.log 10000 :=
      Real.log_lt_log (by norm_num) (by norm_num)
    obtain ⟨scf, hsm⟩ : ∃ sc,
        _score_models (normalizeTimes [(1e-6 : ℝ), 1e-6, 1.1e-6, 0.9e-6])
          (models [(100 : ℝ), 1000, 5000, 10000])
        = (some (constName, rmseOf [0, 0, 1/9, -(1/9)]), sc) := by
      rw [hnorm, _score_models, models]
      simp only [List.foldl_cons, List.foldl_nil]
      rw [scoreStep_first hts_ne _ hres1]
      rw [scoreStep_skip hts_ne _ _ (by
        show _compute_residuals _ ([(100 : ℝ), 1000, 5000, 10000].map
          fun n => n ^ 2) = none
        have hxs : ([(100 : ℝ), 1000, 5000, 10000].map fun n => n ^ 2)
            = [10000, 1000000, 25000000, 100000000] := by
          simp only [List.map_cons, List.map_nil]
          norm_num
        rw [hxs]
        exact compute_residuals_reject4 (by norm_num) (by norm_num) (by norm_num))]
      rw [scoreStep_skip hts_ne _ _ (by
        show _compute_residuals _ ([(100 : ℝ), 1000, 5000, 10000].map
          fun n => if 0 < n then n * Real.log n else 0) = none
        have hxs : ([(100 : ℝ), 1000, 5000, 10000].map
            fun n => if 0 < n then n * Real.log n else 0)
            = [100 * Real.log 100, 1000 * Real.log 1000,
               5000 * Real.log 5000, 10000 * Real.log 10000] := by
          simp only [List.map_cons, List.map_nil]
          norm_num
        rw [hxs]
        exact compute_residuals_reject4
          (mul_log_lt_mul_log (by norm_num) (by norm_num))
          (mul_log_lt_mul_log (by norm_num) (by norm_num))
          (mul_log_lt_mul_log (by norm_num) (by norm_num)))]
      rw [scoreStep_skip hts_ne _ _ (by
        show _compute_residuals _ ([(100 : ℝ), 1000, 5000, 10000]) = none
        exact compute_residuals_reject4 (by norm_num) (by norm_num) (by norm_num))]
      rw [scoreStep_skip hts_ne _ _ (by
        show _compute_residuals _ ([(100 : ℝ), 1000, 5000, 10000].map
          fun n => if 0 < n then Real.log n else 0) = none
        have hxs : ([(100 : ℝ), 1000, 5000, 10000].map
            fun n => if 0 < n then Real.log n else 0)
            = [Real.log 100, Real.log 1000, Real.log 5000, Real.log 10000] := by
          simp only [List.map_cons, List.map_nil]
          norm_num
        rw [hxs]
        exact compute_residuals_reject4 hlog12 hlog23 hlog34)]
      exact ⟨_, rfl⟩
    rw [detect_complexity_eq [(100 : ℝ), 1000, 5000, 10000]
      [(1e-6 : ℝ), 1e-6, 1.1e-6, 0.9e-6] hlen3 hsm, if_neg const_not_linName]

/-- Witness for C3 at a concrete constant series. -/
theorem detect_constant_witness :
    detect_complexity [(1 : ℝ), 2, 3] (List.replicate 3 (5e-7 : ℝ))
        = (some constName, some 0) ∧
    (detect_complexity [100, 1000, 5000, 10000]
      [1e-6, 1e-6, 1.1e-6, 0.9e-6]).1 = some constName :=
  detect_constant [(1 : ℝ), 2, 3] (5e-7) 3 (by norm_num) (by simp)

/-! ## Claim C10 -/

/-- C10: with at least 3 sizes and at least 3 timing samples the estimator
always returns a verdict: some model name out of the fixed five together with
a finite RMSE (the constant model is always applicable); and the
`(None, None)` outcome happens exactly when fewer than 3 samples are
supplied. -/
theorem detect_complexity_total (ns ts : List ℝ) (h3 : 3 ≤ ns.length)
    (_hts : ∀ t ∈ ts, 0 ≤ t) :
    (detect_complexity ns ts = (none, none) ↔ ts.length < 3) ∧
    (3 ≤ ts.length → ∃ name r, detect_complexity ns ts = (some name, some r) ∧
      name ∈ [constName, logName, linName, nlognName, quadName]) := by
  have hns_ne : ns ≠ [] := by
    intro h
    rw [h] at h3
    simp at h3
  have hmain : 3 ≤ ts.length → ∃ name r,
      detect_complexity ns ts = (some name, some r) ∧
      name ∈ [constName, logName, linName, nlognName, quadName] := by
    intro hlen
    have hlt : ¬ ts.length < 3 := not_lt.mpr hlen
    have hnorm_ne : normalizeTimes ts ≠ [] := by
      rw [normalizeTimes, ne_eq, List.map_eq_nil_iff]
      intro h
      rw [h] at hlen
      simp at hlen
    have hconst_same : allSame (ns.map fun _ => (1 : ℝ)) := allSame_map_const hns_ne 1
    have hres1 := compute_residuals_const (normalizeTimes ts) _ hconst_same
    have h1 := @scoreStep_first (normalizeTimes ts) hnorm_ne (fun _ => none)
      constName (ns.map fun _ => (1 : ℝ)) _ hres1
    obtain ⟨bf, bs, sc, heq, hmem⟩ := foldl_scoreStep_some hnorm_ne
      [(logName, ns.map fun n => if 0 < n then Real.log n else 0),
       (linName, ns),
       (nlognName, ns.map fun n => if 0 < n then n * Real.log n else 0),
       (quadName, ns.map fun n => n ^ 2)]
      (some (constName, rmseOf ((normalizeTimes ts).map
          fun t => t - fmean (normalizeTimes ts))),
        fun name => if name = constName
          then some (rmseOf ((normalizeTimes ts).map
            fun t => t - fmean (normalizeTimes ts)))
          else none)
      constName _ rfl
    have hsm : _score_models (normalizeTimes ts) (models ns) = (some (bf, bs), sc) := by
      rw [_score_models, models, List.foldl_cons, h1]
      exact heq
    have hbf5 : bf ∈ [constName, logName, linName, nlognName, quadName] := by
      rcases hmem with h | h
      · simp [h]
      · simp only [List.map_cons, List.map_nil] at h
        simp at h ⊢
        tauto
    rw [detect_complexity_eq ns ts hlt hsm]
    by_cases hbf : bf = linName ∨ bf = nlognName
    · rw [if_pos hbf]
      rcases htb : _tie_break_linear_vs_nlogn ns ts sc with _ | ⟨tf, tsc⟩
      · exact ⟨bf, bs, rfl, hbf5⟩
      · refine ⟨tf, tsc, rfl, ?_⟩
        rcases tie_break_some_shape htb with h | h
        · have htf : tf = linName := h
          simp [htf]
        · have htf : tf = nlognName := h
          simp [htf]
    · rw [if_neg hbf]
      exact ⟨bf, bs, rfl, hbf5⟩
  refine ⟨⟨?_, ?_⟩, hmain⟩
  · intro hnn
    by_contra hge
    push_neg at hge
    obtain ⟨name, r, heq, -⟩ := hmain hge
    rw [heq] at hnn
    simp at hnn
  · intro hlt
    rw [detect_complexity, if_pos hlt]

/-- Witness for C10 at concrete sizes and durations. -/
theorem detect_complexity_total_witness :
    ((detect_complexity [(1 : ℝ), 2, 3] [(1 : ℝ), 1, 1] = (none, none) ↔
      ([(1 : ℝ), 1, 1]).length < 3) ∧
    (3 ≤ ([(1 : ℝ), 1, 1]).length →
      ∃ name r, detect_complexity [(1 : ℝ), 2, 3] [(1 : ℝ), 1, 1]
          = (some name, some r) ∧
        name ∈ [constName, logName, linName, nlognName, quadName])) :=
  detect_complexity_total [(1 : ℝ), 2, 3] [(1 : ℝ), 1, 1] (by simp) (by norm_num)

/-! ## Machinery for the linear / linearithmic traces (C1, C2) -/

lemma rmse_const_pos {ts : List ℝ} {x y : ℝ} (hx : x ∈ ts) (hy : y ∈ ts)
    (hxy : x ≠ y) : 0 < rmseOf (ts.map fun t => t - fmean ts) := by
  by_cases hxm : x = fmean ts
  · refine rmseOf_pos_of_mem (List.mem_map.mpr ⟨y, hy, rfl⟩) ?_
    intro h
    apply hxy
    rw [hxm]
    linarith
  · refine rmseOf_pos_of_mem (List.mem_map.mpr ⟨x, hx, rfl⟩) ?_
    intro h
    apply hxm
    linarith

lemma compute_residuals_exact_id (l : List ℝ) (a b : ℝ)
    (hne : ¬ allSame l) (hdenom : ¬ |regDenom l| < 1e-12) (ha : 1e-12 < a) :
    _compute_residuals (l.map fun x => a * x + b) l
      = some (l.map fun _ => (0 : ℝ)) := by
  have h := compute_residuals_exact l id a b
    (by simpa using hne) (by simpa using hdenom) ha
  simpa using h

lemma exact_zero_equations {l : List ℝ} {g f : ℝ → ℝ} {rs : List ℝ}
    (hne : ¬ allSame (l.map f))
    (hs : _compute_residuals (l.map g) (l.map f) = some rs)
    (h0 : rmseOf rs = 0) :
    1e-12 < regSlope (l.map g) (l.map f) ∧
    ∀ x ∈ l, g x = regSlope (l.map g) (l.map f) * f x
      + regIntercept (l.map g) (l.map f) := by
  obtain ⟨-, hsl, hrs⟩ := compute_residuals_some_reg hne hs
  refine ⟨hsl, ?_⟩
  intro x hx
  rw [zip_self_map, List.map_map] at hrs
  have hmem : (g x - (regSlope (l.map g) (l.map f) * f x
      + regIntercept (l.map g) (l.map f))) ∈ rs := by
    rw [hrs]
    exact List.mem_map.mpr ⟨x, hx, rfl⟩
  have := rmseOf_eq_zero_mem h0 _ hmem
  linarith

lemma normalizeTimes_map {α : Type} [Inhabited α] (ns : List α) (hl : ns ≠ []) (k : ℝ) (g : α → ℝ)
    (hk : 0 < k) (hg0 : 0 < g ns.headI) (hmin : ∀ n ∈ ns, g ns.headI ≤ g n) :
    normalizeTimes (ns.map fun n => k * g n)
      = ns.map fun n => g n / g ns.headI := by
  cases ns with
  | nil => exact absurd rfl hl
  | cons a tl =>
    have hhead : (a :: tl).headI = a := rfl
    rw [hhead] at hg0 hmin
    have hminval : listMin ((a :: tl).map fun n => k * g n) = k * g a := by
      rw [List.map_cons, listMin]
      refine foldl_min_of_le _ _ ?_
      intro x hx
      rcases List.mem_map.mp hx with ⟨n, hn, rfl⟩
      exact mul_le_mul_of_nonneg_left (hmin n (by simp [hn])) hk.le
    have hpos : 0 < k * g a := mul_pos hk hg0
    rw [normalizeTimes, minTime, hminval, if_neg (not_le.mpr hpos), List.map_map]
    refine List.map_congr_left ?_
    intro n _
    show k * g n / (k * g a) = g n / g a
    rw [mul_div_mul_left _ _ (ne_of_gt hk)]

lemma one_lt_log_100 : 1 < Real.log 100 := by
  have he : Real.exp 1 < 100 := lt_trans Real.exp_one_lt_d9 (by norm_num)
  calc (1 : ℝ) = Real.log (Real.exp 1) := (Real.log_exp 1).symm
    _ < Real.log 100 := Real.log_lt_log (Real.exp_pos 1) he

/-- If a model name only occurs with rejected residuals, the fold never
selects it and never records a score for it. -/
lemma foldl_scoreStep_avoid {ts : List ℝ} (bad : String)
    (ms : List (String × List ℝ))
    (hms : ∀ m ∈ ms, m.1 = bad → _compute_residuals ts m.2 = none) :
    ∀ st : Option (String × ℝ) × (String → Option ℝ),
      (∀ p : String × ℝ, st.1 = some p → p.1 ≠ bad) → st.2 bad = none →
      (∀ p : String × ℝ, (ms.foldl (scoreStep ts) st).1 = some p → p.1 ≠ bad) ∧
      (ms.foldl (scoreStep ts) st).2 bad = none := by
  induction ms with
  | nil =>
    intro st h1 h2
    exact ⟨h1, h2⟩
  | cons m rest ih =>
    intro st h1 h2
    have hrest : ∀ m' ∈ rest, m'.1 = bad → _compute_residuals ts m'.2 = none :=
      fun m' hm' => hms m' (List.mem_cons_of_mem _ hm')
    rw [List.foldl_cons]
    by_cases hts : ts = []
    · have hstep : scoreStep ts st m = st := by
        rw [scoreStep, if_pos hts]
      rw [hstep]
      exact ih hrest st h1 h2
    rcases m with ⟨mn, mx⟩
    rcases hres : _compute_residuals ts mx with _ | rs
    · rw [scoreStep_skip hts st (mn, mx) hres]
      exact ih hrest st h1 h2
    · have hmn : mn ≠ bad := by
        intro hbad
        rw [hms (mn, mx) (by simp) hbad] at hres
        cases hres
      rcases st with ⟨best, sc⟩
      have hscbad : sc bad = none := h2
      rcases best with _ | ⟨bf, bs⟩
      · rw [scoreStep_first hts sc hres]
        refine ih hrest _ ?_ ?_
        · rintro ⟨pn, pr⟩ hp
          simp only [Option.some_inj] at hp
          have : pn = mn := (congrArg Prod.fst hp).symm
          rw [this]
          exact hmn
        · show (if bad = mn then some (rmseOf rs) else sc bad) = none
          rw [if_neg (fun h => hmn h.symm), hscbad]
      · obtain ⟨bf1, bs1, heq1, -, hname⟩ :=
          @scoreStep_some_any ts hts sc mn _ _ bf bs hres
        rw [heq1]
        refine ih hrest _ ?_ ?_
        · rintro ⟨pn, pr⟩ hp
          simp only [Option.some_inj] at hp
          have hpn : pn = bf1 := (congrArg Prod.fst hp).symm
          rw [hpn]
          rcases hname with h | h
          · rw [h]
            exact fun hb => h1 (bf, bs) rfl (by simpa using hb)
          · rw [h]
            exact hmn
        · show (if bad = mn then some (rmseOf rs) else sc bad) = none
          rw [if_neg (fun h => hmn h.symm), hscbad]

/-- A later model with nonnegative RMSE and no better priority cannot
displace a best fit with score 0. -/
lemma scoreStep_zero_keep {ts : List ℝ} (hts : ts ≠ []) (sc : String → Option ℝ)
    {name : String} {xs rs : List ℝ} {bf : String}
    (h : _compute_residuals ts xs = some rs)
    (hprio : ¬ model_priority name < model_priority bf) :
    scoreStep ts (some (bf, 0), sc) (name, xs)
      = (some (bf, 0), fun n' => if n' = name then some (rmseOf rs) else sc n') := by
  apply scoreStep_keep hts sc h
  · rw [if_neg (lt_irrefl (0 : ℝ))]
    intro hlt
    nlinarith [rmseOf_nonneg rs]
  · rintro ⟨-, hp⟩
    exact hprio hp

lemma headI_map (f : ℝ → ℝ) (l : List ℝ) (h : l ≠ []) :
    (l.map f).headI = f l.headI := by
  cases l with
  | nil => exact absurd rfl h
  | cons a t => rfl

/-- The `_score_models` trace on exactly linear data `t = x / c` over the five
models: the constant fit has positive RMSE, the logarithmic and linearithmic
models are either rejected or fitted with positive RMSE (an exact fit would
contradict strict convexity), the linear model fits exactly with slope `1/c`
above the threshold, and nothing displaces it afterwards. -/
lemma score_models_linear_trace (L : List ℝ) (c x0 x1 x2 : ℝ)
    (hmem0 : x0 ∈ L) (hmem1 : x1 ∈ L) (hmem2 : x2 ∈ L) (hhead : L.headI = x0)
    (h0 : 1 ≤ x0) (h01 : x0 < x1) (h12 : x1 < x2) (hceq : c = x0)
    (hne : L ≠ []) (hdiff : 1 ≤ x1 - x0) (hsmallc : c < 1e12) :
    ∃ scf, _score_models (L.map fun x => x / c)
        [(constName, L.map fun _ => 1), (logName, L.map Real.log), (linName, L),
         (nlognName, L.map fun x => x * Real.log x),
         (quadName, L.map fun x => x ^ 2)]
      = (some (linName, 0), scf) ∧ scf linName = some 0 ∧
        (scf nlognName = none ∨ ∃ r, scf nlognName = some r ∧ 0 < r) := by
  have hcpos : 0 < c := by rw [hceq]; linarith
  have hx0pos : 0 < x0 := by linarith
  have hT_ne : L.map (fun x => x / c) ≠ [] := by simpa using hne
  have hres1 : _compute_residuals (L.map fun x => x / c) (L.map fun _ => 1)
      = some ((L.map fun x => x / c).map fun t => t - fmean (L.map fun x => x / c)) :=
    compute_residuals_const _ _ (allSame_map_const hne 1)
  have hrC : 0 < rmseOf ((L.map fun x => x / c).map fun t =>
      t - fmean (L.map fun x => x / c)) :=
    rmse_const_pos (List.mem_map.mpr ⟨x0, hmem0, rfl⟩)
      (List.mem_map.mpr ⟨x1, hmem1, rfl⟩)
      (ne_of_lt (div_lt_div_of_pos_right h01 hcpos))
  have hstep2 : ∀ sc1 : String → Option ℝ, sc1 linName = none →
      sc1 nlognName = none →
      ∃ bf2 bs2 sc2,
        scoreStep (L.map fun x => x / c)
          (some (constName, rmseOf ((L.map fun x => x / c).map fun t =>
            t - fmean (L.map fun x => x / c))), sc1) (logName, L.map Real.log)
        = (some (bf2, bs2), sc2) ∧ 0 < bs2 ∧ sc2 linName = none ∧
          sc2 nlognName = none := by
    intro sc1 hsl hsn
    rcases hres2 : _compute_residuals (L.map fun x => x / c) (L.map Real.log)
      with _ | rs2
    · exact ⟨_, _, sc1, scoreStep_skip hT_ne _ _ hres2, hrC, hsl, hsn⟩
    · have hne2 : ¬ allSame (L.map Real.log) := by
        apply not_allSame_of_ne (List.mem_map.mpr ⟨x1, hmem1, rfl⟩)
        rw [headI_map Real.log L hne, hhead]
        exact ne_of_gt (Real.log_lt_log hx0pos h01)
      have hr2 : 0 < rmseOf rs2 := by
        rcases lt_or_eq_of_le (rmseOf_nonneg rs2) with h | h
        · exact h
        exfalso
        obtain ⟨hsl2, heqs⟩ := exact_zero_equations hne2 hres2 h.symm
        exact no_log_fit_of_linear_data hx0pos h01 h12
          (lt_trans (by norm_num) hsl2) hcpos
          (heqs x0 hmem0) (heqs x1 hmem1) (heqs x2 hmem2)
      obtain ⟨bf2, bs2, heq, hor, -⟩ := scoreStep_some_any hT_ne sc1 hres2
      refine ⟨bf2, bs2, _, heq, ?_, ?_, ?_⟩
      · rcases hor with rfl | rfl
        · exact hrC
        · exact hr2
      · show (if linName = logName then some (rmseOf rs2) else sc1 linName) = none
        rw [if_neg (by decide), hsl]
      · show (if nlognName = logName then some (rmseOf rs2) else sc1 nlognName) = none
        rw [if_neg (by decide), hsn]
  have hne3 : ¬ allSame L := by
    apply not_allSame_of_ne hmem1
    rw [hhead]
    exact ne_of_gt h01
  have hdenom3 : ¬ |regDenom L| < 1e-12 := by
    have hge := regDenom_ge hmem0 hmem1 one_pos hdiff
    rw [abs_of_nonneg (regDenom_nonneg L)]
    intro hlt
    nlinarith
  have ha3 : (1e-12 : ℝ) < 1 / c := by
    rw [show (1e-12 : ℝ) = 1 / 1e12 by norm_num]
    exact one_div_lt_one_div_of_lt hcpos hsmallc
  have hres3 : _compute_residuals (L.map fun x => x / c) L
      = some (L.map fun _ => (0 : ℝ)) := by
    have hform : (L.map fun x => x / c) = L.map fun x => (1 / c) * x + 0 :=
      List.map_congr_left fun x _ => by rw [add_zero, one_div, inv_mul_eq_div]
    rw [hform]
    exact compute_residuals_exact_id L (1 / c) 0 hne3 hdenom3 ha3
  have hrs3 : rmseOf (L.map fun _ => (0 : ℝ)) = 0 :=
    rmseOf_map_zero L _ fun _ _ => rfl
  have hstep4 : ∀ sc3 : String → Option ℝ, sc3 linName = some 0 →
      sc3 nlognName = none →
      ∃ sc4, scoreStep (L.map fun x => x / c) (some (linName, 0), sc3)
          (nlognName, L.map fun x => x * Real.log x)
        = (some (linName, 0), sc4) ∧ sc4 linName = some 0 ∧
          (sc4 nlognName = none ∨ ∃ r, sc4 nlognName = some r ∧ 0 < r) := by
    intro sc3 hsl hsn
    rcases hres4 : _compute_residuals (L.map fun x => x / c)
      (L.map fun x => x * Real.log x) with _ | rs4
    · exact ⟨sc3, scoreStep_skip hT_ne _ _ hres4, hsl, Or.inl hsn⟩
    · have hne4 : ¬ allSame (L.map fun x => x * Real.log x) := by
        apply not_allSame_of_ne (List.mem_map.mpr ⟨x1, hmem1, rfl⟩)
        rw [headI_map _ L hne, hhead]
        exact ne_of_gt (mul_log_lt_mul_log h0 h01)
      have hr4 : 0 < rmseOf rs4 := by
        rcases lt_or_eq_of_le (rmseOf_nonneg rs4) with h | h
        · exact h
        exfalso
        obtain ⟨hsl4, heqs⟩ := exact_zero_equations hne4 hres4 h.symm
        exact no_nlogn_fit_of_linear_data hx0pos h01 h12
          (lt_trans (by norm_num) hsl4) hcpos
          (heqs x0 hmem0) (heqs x1 hmem1) (heqs x2 hmem2)
      refine ⟨_, scoreStep_zero_keep hT_ne sc3 hres4 (by decide), ?_, ?_⟩
      · show (if linName = nlognName then some (rmseOf rs4) else sc3 linName) = some 0
        rw [if_neg (by decide), hsl]
      · right
        refine ⟨rmseOf rs4, ?_, hr4⟩
        show (if nlognName = nlognName then some (rmseOf rs4) else sc3 nlognName)
          = some (rmseOf rs4)
        rw [if_pos rfl]
  have hstep5 : ∀ sc4 : String → Option ℝ, sc4 linName = some 0 →
      ∀ v, sc4 nlognName = v →
      ∃ sc5, scoreStep (L.map fun x => x / c) (some (linName, 0), sc4)
          (quadName, L.map fun x => x ^ 2)
        = (some (linName, 0), sc5) ∧ sc5 linName = some 0 ∧ sc5 nlognName = v := by
    intro sc4 hsl v hsn
    rcases hres5 : _compute_residuals (L.map fun x => x / c)
      (L.map fun x => x ^ 2) with _ | rs5
    · exact ⟨sc4, scoreStep_skip hT_ne _ _ hres5, hsl, hsn⟩
    · refine ⟨_, scoreStep_zero_keep hT_ne sc4 hres5 (by decide), ?_, ?_⟩
      · show (if linName = quadName then some (rmseOf rs5) else sc4 linName) = some 0
        rw [if_neg (by decide), hsl]
      · show (if nlognName = quadName then some (rmseOf rs5) else sc4 nlognName) = v
        rw [if_neg (by decide), hsn]
  rw [_score_models]
  simp only [List.foldl_cons, List.foldl_nil]
  rw [scoreStep_first hT_ne (fun _ => none) hres1]
  obtain ⟨bf2, bs2, sc2, heq2, hbs2, hsl2', hsn2'⟩ := hstep2
    (fun n' => if n' = constName then some (rmseOf ((L.map fun x => x / c).map
      fun t => t - fmean (L.map fun x => x / c))) else (fun _ => none) n')
    (by simp [linName, constName]) (by simp [nlognName, constName])
  rw [heq2]
  have hwin3 : rmseOf (L.map fun _ => (0 : ℝ))
      < bs2 - (if 0 < bs2 then (0.05 : ℝ) * bs2 else 1e-9) := by
    rw [hrs3, if_pos hbs2]
    nlinarith
  rw [scoreStep_win hT_ne sc2 hres3 hwin3, hrs3]
  obtain ⟨sc4, heq4, hsl4', hsn4'⟩ := hstep4
    (fun n' => if n' = linName then some ((0 : ℝ)) else sc2 n')
    (by
      show (if linName = linName then some ((0 : ℝ)) else sc2 linName) = some 0
      rw [if_pos rfl])
    (by
      show (if nlognName = linName then some ((0 : ℝ)) else sc2 nlognName) = none
      rw [if_neg (by decide)]
      exact hsn2')
  rw [heq4]
  rcases hsn4' with hv | ⟨r4, hv, hr4⟩
  · obtain ⟨sc5, heq5, hsl5', hsn5'⟩ := hstep5 sc4 hsl4' none hv
    rw [heq5]
    exact ⟨sc5, rfl, hsl5', Or.inl hsn5'⟩
  · obtain ⟨sc5, heq5, hsl5', hsn5'⟩ := hstep5 sc4 hsl4' (some r4) hv
    rw [heq5]
    exact ⟨sc5, rfl, hsl5', Or.inr ⟨r4, hsn5', hr4⟩⟩

/-! ## Claim C1 (corrected) -/

/-- C1 counterexample: for the strictly increasing sizes
`[10^12, 2*10^12, 3*10^12]` with durations exactly proportional to size
(`k = 1`), the linear model's fitted slope is exactly `1e-12`, which the
`a <= 1e-12` guard rejects, so `detect_complexity` does NOT select the
Linear model — refuting the claim as stated for arbitrary size series. -/
theorem detect_linear_huge_sizes_not_linear :
    (detect_complexity [(1e12 : ℝ), 2e12, 3e12] [(1e12 : ℝ), 2e12, 3e12]).1
      ≠ some linName := by
  have hlen : ¬ ([(1e12 : ℝ), 2e12, 3e12]).length < 3 := by simp
  have hmin : listMin [(1e12 : ℝ), 2e12, 3e12] = 1e12 := by
    rw [listMin]
    simp only [List.foldl_cons, List.foldl_nil]
    norm_num [min_def]
  have hnorm : normalizeTimes [(1e12 : ℝ), 2e12, 3e12] = [1, 2, 3] := by
    rw [normalizeTimes, minTime, hmin, if_neg (by norm_num)]
    simp only [List.map_cons, List.map_nil]
    norm_num
  have hns : ¬ allSame [(1e12 : ℝ), 2e12, 3e12] :=
    not_allSame_of_ne (y := (2e12 : ℝ)) (by norm_num) (by norm_num)
  have hdenom : regDenom [(1e12 : ℝ), 2e12, 3e12] = 6e24 := by
    rw [regDenom]
    simp only [List.map_cons, List.map_nil, List.sum_cons, List.sum_nil,
      List.length_cons, List.length_nil]
    norm_num
  have hslope : regSlope [(1 : ℝ), 2, 3] [(1e12 : ℝ), 2e12, 3e12] = 1e-12 := by
    rw [regSlope, hdenom]
    simp only [List.zip_cons_cons, List.zip_nil_right, List.map_cons,
      List.map_nil, List.sum_cons, List.sum_nil, List.length_cons,
      List.length_nil]
    norm_num
  have hlin_none : _compute_residuals [(1 : ℝ), 2, 3] [(1e12 : ℝ), 2e12, 3e12]
      = none :=
    (compute_residuals_none_iff _ _ hns).mpr (Or.inr (le_of_eq hslope))
  have hms : ∀ m ∈ models [(1e12 : ℝ), 2e12, 3e12], m.1 = linName →
      _compute_residuals [(1 : ℝ), 2, 3] m.2 = none := by
    intro m hm hbad
    rw [models] at hm
    simp only [List.mem_cons, List.not_mem_nil, or_false] at hm
    rcases hm with rfl | rfl | rfl | rfl | rfl
    · exact absurd hbad (by rw [constName, linName]; decide)
    · exact absurd hbad (by rw [logName, linName]; decide)
    · exact hlin_none
    · exact absurd hbad (by rw [nlognName, linName]; decide)
    · exact absurd hbad (by rw [quadName, linName]; decide)
  have hinv := foldl_scoreStep_avoid linName (models [(1e12 : ℝ), 2e12, 3e12])
    hms (none, fun _ => none) (by simp) rfl
  rcases hsm : _score_models [(1 : ℝ), 2, 3] (models [(1e12 : ℝ), 2e12, 3e12])
    with ⟨best, sc⟩
  have hsm_foldl : (models [(1e12 : ℝ), 2e12, 3e12]).foldl
      (scoreStep [(1 : ℝ), 2, 3]) (none, fun _ => none) = (best, sc) := hsm
  rcases best with _ | ⟨bf, bs⟩
  · rw [detect_complexity_eq_none [(1e12 : ℝ), 2e12, 3e12] [(1e12 : ℝ), 2e12, 3e12]
      hlen (by rw [hnorm]; exact hsm)]
    simp
  · have hbf : bf ≠ linName := hinv.1 (bf, bs) (by rw [hsm_foldl])
    have hsclin : sc linName = none := by
      have := hinv.2
      rw [hsm_foldl] at this
      exact this
    rw [detect_complexity_eq [(1e12 : ℝ), 2e12, 3e12] [(1e12 : ℝ), 2e12, 3e12]
      hlen (by rw [hnorm]; exact hsm)]
    by_cases hcond : bf = linName ∨ bf = nlognName
    · rw [if_pos hcond, tie_break_none_left hsclin]
      simp [hbf]
    · rw [if_neg hcond]
      simp [hbf]

/-- C1 (amended): for every strictly increasing series of positive integer
sizes of length ≥ 3 whose smallest size is below `10^12` (so that the exact
fitted linear slope `1/n₀` clears the `1e-12` positivity threshold — the
counterexample above shows the bound is necessary), and durations exactly
proportional to size (`duration = k·n` with `k > 0`), `detect_complexity`
selects the Linear model and reports RMSE exactly 0. -/
theorem detect_linear_exact (ns : List ℕ) (k : ℝ) (hlen : 3 ≤ ns.length)
    (hchain : ns.Chain' (· < ·)) (hpos : ∀ n ∈ ns, 1 ≤ n)
    (hsmall : (ns.headI : ℝ) < 1e12) (hk : 0 < k) :
    detect_complexity (ns.map fun n : ℕ => (n : ℝ)) (ns.map fun n : ℕ => k * (n : ℝ))
      = (some linName, some 0) := by
  rcases ns with _ | ⟨n0, _ | ⟨n1, _ | ⟨n2, rest⟩⟩⟩
  · norm_num at hlen
  · norm_num at hlen
  · norm_num at hlen
  obtain ⟨h0all, hpair1⟩ :=
    List.pairwise_cons.mp (List.chain'_iff_pairwise.mp hchain)
  obtain ⟨h1all, hpair2⟩ := List.pairwise_cons.mp hpair1
  have h01 : n0 < n1 := h0all n1 (by simp)
  have h12 : n1 < n2 := h1all n2 (by simp)
  have hn0_1 : 1 ≤ n0 := hpos n0 (by simp)
  have hc0 : (1 : ℝ) ≤ (n0 : ℝ) := by exact_mod_cast hn0_1
  have hcpos : (0 : ℝ) < (n0 : ℝ) := by linarith
  have hc01 : ((n0 : ℝ)) < (n1 : ℝ) := by exact_mod_cast h01
  have hc12 : ((n1 : ℝ)) < (n2 : ℝ) := by exact_mod_cast h12
  have hsmall' : ((n0 : ℝ)) < 1e12 := hsmall
  have hmem0 : ((n0 : ℝ)) ∈ (n0 :: n1 :: n2 :: rest).map (fun n : ℕ => (n : ℝ)) := by
    simp
  have hmem1 : ((n1 : ℝ)) ∈ (n0 :: n1 :: n2 :: rest).map (fun n : ℕ => (n : ℝ)) := by
    simp
  have hmem2 : ((n2 : ℝ)) ∈ (n0 :: n1 :: n2 :: rest).map (fun n : ℕ => (n : ℝ)) := by
    simp
  have hLpos : ∀ x ∈ (n0 :: n1 :: n2 :: rest).map (fun n : ℕ => (n : ℝ)), 0 < x := by
    intro x hx
    rcases List.mem_map.mp hx with ⟨n, hn, rfl⟩
    have h1 := hpos n hn
    have h2 : (1 : ℝ) ≤ (n : ℝ) := by exact_mod_cast h1
    linarith
  have hdiff : (1 : ℝ) ≤ ((n1 : ℝ)) - ((n0 : ℝ)) := by
    have h2 : n0 + 1 ≤ n1 := h01
    have h3 : ((n0 : ℝ)) + 1 ≤ (n1 : ℝ) := by exact_mod_cast h2
    linarith
  have hminfact : ∀ n ∈ n0 :: n1 :: n2 :: rest,
      (((n0 :: n1 :: n2 :: rest).headI : ℕ) : ℝ) ≤ (n : ℝ) := by
    intro n hn
    rcases List.mem_cons.mp hn with rfl | hn'
    · exact le_refl _
    · exact_mod_cast le_of_lt (h0all n hn')
  have hts_eq : (((n0 :: n1 :: n2 :: rest).map fun n : ℕ => (n : ℝ)).map
        fun x => x / ((n0 : ℝ)))
      = (n0 :: n1 :: n2 :: rest).map (fun n : ℕ => ((n : ℝ)) / ((n0 : ℝ))) := by
    rw [List.map_map]
    exact List.map_congr_left fun x _ => rfl
  have hnormT : normalizeTimes ((n0 :: n1 :: n2 :: rest).map fun n : ℕ => k * (n : ℝ))
      = ((n0 :: n1 :: n2 :: rest).map fun n : ℕ => (n : ℝ)).map
          fun x => x / ((n0 : ℝ)) := by
    have h := normalizeTimes_map (n0 :: n1 :: n2 :: rest) (by simp) k
      (fun n : ℕ => (n : ℝ)) hk hcpos hminfact
    exact h.trans hts_eq.symm
  have hmodels : models ((n0 :: n1 :: n2 :: rest).map fun n : ℕ => (n : ℝ))
      = [(constName, ((n0 :: n1 :: n2 :: rest).map fun n : ℕ => (n : ℝ)).map fun _ => 1),
         (logName, ((n0 :: n1 :: n2 :: rest).map fun n : ℕ => (n : ℝ)).map Real.log),
         (linName, (n0 :: n1 :: n2 :: rest).map fun n : ℕ => (n : ℝ)),
         (nlognName, ((n0 :: n1 :: n2 :: rest).map fun n : ℕ => (n : ℝ)).map
            fun x => x * Real.log x),
         (quadName, ((n0 :: n1 :: n2 :: rest).map fun n : ℕ => (n : ℝ)).map
            fun x => x ^ 2)] := by
    have h2 : (((n0 :: n1 :: n2 :: rest).map fun n : ℕ => (n : ℝ)).map
          fun n => if 0 < n then Real.log n else 0)
        = ((n0 :: n1 :: n2 :: rest).map fun n : ℕ => (n : ℝ)).map Real.log :=
      List.map_congr_left fun x hx => if_pos (hLpos x hx)
    have h4 : (((n0 :: n1 :: n2 :: rest).map fun n : ℕ => (n : ℝ)).map
          fun n => if 0 < n then n * Real.log n else 0)
        = ((n0 :: n1 :: n2 :: rest).map fun n : ℕ => (n : ℝ)).map
            fun x => x * Real.log x :=
      List.map_congr_left fun x hx => if_pos (hLpos x hx)
    rw [models, h2, h4]
  obtain ⟨scf, hsm0, hlin, hnl⟩ := score_models_linear_trace
    ((n0 :: n1 :: n2 :: rest).map fun n : ℕ => (n : ℝ)) ((n0 : ℝ))
    ((n0 : ℝ)) ((n1 : ℝ)) ((n2 : ℝ)) hmem0 hmem1 hmem2 rfl hc0 hc01 hc12 rfl
    (by simp) hdiff hsmall'
  have hsm : _score_models
      (normalizeTimes ((n0 :: n1 :: n2 :: rest).map fun n : ℕ => k * (n : ℝ)))
      (models ((n0 :: n1 :: n2 :: rest).map fun n : ℕ => (n : ℝ)))
      = (some (linName, 0), scf) := by
    rw [hnormT, hmodels]
    exact hsm0
  rw [detect_complexity_eq _ _ (by simp) hsm, if_pos (Or.inl rfl)]
  rcases hnl with hn | ⟨r4, hn, hr4⟩
  · rw [tie_break_none_right hn]
  · rw [tie_break_none_of_gap hlin hn (by
      rw [min_eq_left hr4.le, mul_zero, zero_sub, abs_neg, abs_of_pos hr4]
      exact hr4)]

/-- Witness for the amended C1 at sizes `[100, 1000, 5000, 10000]` with
`k = 1e-6`. -/
theorem detect_linear_exact_witness :
    detect_complexity ([100, 1000, 5000, 10000].map fun n : ℕ => (n : ℝ))
      ([100, 1000, 5000, 10000].map fun n : ℕ => (1e-6 : ℝ) * (n : ℝ))
      = (some linName, some 0) :=
  detect_linear_exact [100, 1000, 5000, 10000] 1e-6 (by norm_num)
    (by norm_num [List.chain'_cons]) (by decide) (by norm_num) (by norm_num)

/-! ## Claim C2 -/

/-- The `_score_models` trace on exactly linearithmic data
`t = x * log x / c` with `c = x0 * log x0`: the constant fit has positive
RMSE, exact logarithmic or linear fits are impossible (strict convexity), the
linearithmic model fits exactly with slope `1/c` above the threshold and wins,
and the quadratic model cannot displace it. -/
lemma score_models_nlogn_trace (L : List ℝ) (c x0 x1 x2 : ℝ)
    (hmem0 : x0 ∈ L) (hmem1 : x1 ∈ L) (hmem2 : x2 ∈ L) (hhead : L.headI = x0)
    (h0 : 1 < x0) (h01 : x0 < x1) (h12 : x1 < x2)
    (hceq : c = x0 * Real.log x0) (hne : L ≠ [])
    (hdiff : 1 ≤ x1 * Real.log x1 - x0 * Real.log x0) (hsmallc : c < 1e12) :
    ∃ scf, _score_models (L.map fun x => x * Real.log x / c)
        [(constName, L.map fun _ => 1), (logName, L.map Real.log), (linName, L),
         (nlognName, L.map fun x => x * Real.log x),
         (quadName, L.map fun x => x ^ 2)]
      = (some (nlognName, 0), scf) ∧ scf nlognName = some 0 ∧
        (scf linName = none ∨ ∃ r, scf linName = some r ∧ 0 < r) := by
  have hx0pos : 0 < x0 := by linarith
  have hlog0 : 0 < Real.log x0 := Real.log_pos h0
  have hcpos : 0 < c := by
    rw [hceq]
    positivity
  have hT_ne : L.map (fun x => x * Real.log x / c) ≠ [] := by simpa using hne
  have hres1 : _compute_residuals (L.map fun x => x * Real.log x / c)
      (L.map fun _ => 1)
      = some ((L.map fun x => x * Real.log x / c).map fun t =>
          t - fmean (L.map fun x => x * Real.log x / c)) :=
    compute_residuals_const _ _ (allSame_map_const hne 1)
  have hrC : 0 < rmseOf ((L.map fun x => x * Real.log x / c).map fun t =>
      t - fmean (L.map fun x => x * Real.log x / c)) :=
    rmse_const_pos (List.mem_map.mpr ⟨x0, hmem0, rfl⟩)
      (List.mem_map.mpr ⟨x1, hmem1, rfl⟩)
      (ne_of_lt (div_lt_div_of_pos_right (mul_log_lt_mul_log h0.le h01) hcpos))
  have hstep2 : ∀ sc1 : String → Option ℝ, sc1 linName = none →
      sc1 nlognName = none →
      ∃ bf2 bs2 sc2,
        scoreStep (L.map fun x => x * Real.log x / c)
          (some (constName, rmseOf ((L.map fun x => x * Real.log x / c).map
            fun t => t - fmean (L.map fun x => x * Real.log x / c))), sc1)
          (logName, L.map Real.log)
        = (some (bf2, bs2), sc2) ∧ 0 < bs2 ∧ sc2 linName = none ∧
          sc2 nlognName = none := by
    intro sc1 hsl hsn
    rcases hres2 : _compute_residuals (L.map fun x => x * Real.log x / c)
      (L.map Real.log) with _ | rs2
    · exact ⟨_, _, sc1, scoreStep_skip hT_ne _ _ hres2, hrC, hsl, hsn⟩
    · have hne2 : ¬ allSame (L.map Real.log) := by
        apply not_allSame_of_ne (List.mem_map.mpr ⟨x1, hmem1, rfl⟩)
        rw [headI_map Real.log L hne, hhead]
        exact ne_of_gt (Real.log_lt_log hx0pos h01)
      have hr2 : 0 < rmseOf rs2 := by
        rcases lt_or_eq_of_le (rmseOf_nonneg rs2) with h | h
        · exact h
        exfalso
        obtain ⟨hsl2, heqs⟩ := exact_zero_equations hne2 hres2 h.symm
        exact no_log_fit_of_nlogn_data hx0pos h01 h12
          (lt_trans (by norm_num) hsl2) hcpos
          (heqs x0 hmem0) (heqs x1 hmem1) (heqs x2 hmem2)
      obtain ⟨bf2, bs2, heq, hor, -⟩ := scoreStep_some_any hT_ne sc1 hres2
      refine ⟨bf2, bs2, _, heq, ?_, ?_, ?_⟩
      · rcases hor with rfl | rfl
        · exact hrC
        · exact hr2
      · show (if linName = logName then some (rmseOf rs2) else sc1 linName) = none
        rw [if_neg (by decide), hsl]
      · show (if nlognName = logName then some (rmseOf rs2) else sc1 nlognName) = none
        rw [if_neg (by decide), hsn]
  have hstep3 : ∀ (bf2 : String) (bs2 : ℝ), 0 < bs2 →
      ∀ sc2 : String → Option ℝ, sc2 linName = none → sc2 nlognName = none →
      ∃ bf3 bs3 sc3,
        scoreStep (L.map fun x => x * Real.log x / c) (some (bf2, bs2), sc2)
          (linName, L)
        = (some (bf3, bs3), sc3) ∧ 0 < bs3 ∧
          (sc3 linName = none ∨ ∃ r, sc3 linName = some r ∧ 0 < r) ∧
          sc3 nlognName = none := by
    intro bf2 bs2 hbs2 sc2 hsl hsn
    rcases hres3 : _compute_residuals (L.map fun x => x * Real.log x / c) L
      with _ | rs3
    · exact ⟨bf2, bs2, sc2, scoreStep_skip hT_ne _ _ hres3, hbs2,
        Or.inl hsl, hsn⟩
    · have hne3 : ¬ allSame L := by
        apply not_allSame_of_ne hmem1
        rw [hhead]
        exact ne_of_gt h01
      have hLid : L = L.map id := (List.map_id L).symm
      have hr3 : 0 < rmseOf rs3 := by
        rcases lt_or_eq_of_le (rmseOf_nonneg rs3) with h | h
        · exact h
        exfalso
        have hres3' : _compute_residuals (L.map fun x => x * Real.log x / c)
            (L.map id) = some rs3 := by
          rw [← hLid]
          exact hres3
        have hne3' : ¬ allSame (L.map id) := by
          rw [← hLid]
          exact hne3
        obtain ⟨hsl3, heqs⟩ := exact_zero_equations hne3' hres3' h.symm
        exact no_linear_fit_of_nlogn_data hx0pos h01 h12 hcpos
          (heqs x0 hmem0) (heqs x1 hmem1) (heqs x2 hmem2)
      obtain ⟨bf3, bs3, heq, hor, -⟩ := scoreStep_some_any hT_ne sc2 hres3
      refine ⟨bf3, bs3, _, heq, ?_, ?_, ?_⟩
      · rcases hor with rfl | rfl
        · exact hbs2
        · exact hr3
      · right
        refine ⟨rmseOf rs3, ?_, hr3⟩
        show (if linName = linName then some (rmseOf rs3) else sc2 linName)
          = some (rmseOf rs3)
        rw [if_pos rfl]
      · show (if nlognName = linName then some (rmseOf rs3) else sc2 nlognName) = none
        rw [if_neg (by decide), hsn]
  have hne4 : ¬ allSame (L.map fun x => x * Real.log x) := by
    apply not_allSame_of_ne (List.mem_map.mpr ⟨x1, hmem1, rfl⟩)
    rw [headI_map _ L hne, hhead]
    exact ne_of_gt (mul_log_lt_mul_log h0.le h01)
  have hdenom4 : ¬ |regDenom (L.map fun x => x * Real.log x)| < 1e-12 := by
    have hm0 : x0 * Real.log x0 ∈ L.map fun x => x * Real.log x :=
      List.mem_map.mpr ⟨x0, hmem0, rfl⟩
    have hm1 : x1 * Real.log x1 ∈ L.map fun x => x * Real.log x :=
      List.mem_map.mpr ⟨x1, hmem1, rfl⟩
    have hge := regDenom_ge hm0 hm1 one_pos hdiff
    rw [abs_of_nonneg (regDenom_nonneg _)]
    intro hlt
    nlinarith
  have ha4 : (1e-12 : ℝ) < 1 / c := by
    rw [show (1e-12 : ℝ) = 1 / 1e12 by norm_num]
    exact one_div_lt_one_div_of_lt hcpos hsmallc
  have hres4 : _compute_residuals (L.map fun x => x * Real.log x / c)
      (L.map fun x => x * Real.log x) = some (L.map fun _ => (0 : ℝ)) := by
    have hform : (L.map fun x => x * Real.log x / c)
        = L.map fun x => (1 / c) * (x * Real.log x) + 0 :=
      List.map_congr_left fun x _ => by rw [add_zero, one_div, inv_mul_eq_div]
    rw [hform]
    exact compute_residuals_exact L (fun x => x * Real.log x) (1 / c) 0
      hne4 hdenom4 ha4
  have hrs4 : rmseOf (L.map fun _ => (0 : ℝ)) = 0 :=
    rmseOf_map_zero L _ fun _ _ => rfl
  have hstep5 : ∀ sc4 : String → Option ℝ, sc4 nlognName = some 0 →
      ∀ v, sc4 linName = v →
      ∃ sc5, scoreStep (L.map fun x => x * Real.log x / c)
          (some (nlognName, 0), sc4) (quadName, L.map fun x => x ^ 2)
        = (some (nlognName, 0), sc5) ∧ sc5 nlognName = some 0 ∧
          sc5 linName = v := by
    intro sc4 hsn v hsl
    rcases hres5 : _compute_residuals (L.map fun x => x * Real.log x / c)
      (L.map fun x => x ^ 2) with _ | rs5
    · exact ⟨sc4, scoreStep_skip hT_ne _ _ hres5, hsn, hsl⟩
    · refine ⟨_, scoreStep_zero_keep hT_ne sc4 hres5 (by decide), ?_, ?_⟩
      · show (if nlognName = quadName then some (rmseOf rs5) else sc4 nlognName)
          = some 0
        rw [if_neg (by decide), hsn]
      · show (if linName = quadName then some (rmseOf rs5) else sc4 linName) = v
        rw [if_neg (by decide), hsl]
  rw [_score_models]
  simp only [List.foldl_cons, List.foldl_nil]
  rw [scoreStep_first hT_ne (fun _ => none) hres1]
  obtain ⟨bf2, bs2, sc2, heq2, hbs2, hsl2', hsn2'⟩ := hstep2
    (fun n' => if n' = constName then
      some (rmseOf ((L.map fun x => x * Real.log x / c).map
        fun t => t - fmean (L.map fun x => x * Real.log x / c)))
      else (fun _ => none) n')
    (by simp [linName, constName]) (by simp [nlognName, constName])
  rw [heq2]
  obtain ⟨bf3, bs3, sc3, heq3, hbs3, hsl3', hsn3'⟩ :=
    hstep3 bf2 bs2 hbs2 sc2 hsl2' hsn2'
  rw [heq3]
  have hwin4 : rmseOf (L.map fun _ => (0 : ℝ))
      < bs3 - (if 0 < bs3 then (0.05 : ℝ) * bs3 else 1e-9) := by
    rw [hrs4, if_pos hbs3]
    nlinarith
  rw [scoreStep_win hT_ne sc3 hres4 hwin4, hrs4]
  rcases hsl3' with hv | ⟨r3, hv, hr3⟩
  · obtain ⟨sc5, heq5, hsn5', hsl5'⟩ := hstep5
      (fun n' => if n' = nlognName then some ((0 : ℝ)) else sc3 n')
      (by
        show (if nlognName = nlognName then some ((0 : ℝ)) else sc3 nlognName)
          = some 0
        rw [if_pos rfl])
      none
      (by
        show (if linName = nlognName then some ((0 : ℝ)) else sc3 linName) = none
        rw [if_neg (by decide)]
        exact hv)
    rw [heq5]
    exact ⟨sc5, rfl, hsn5', Or.inl hsl5'⟩
  · obtain ⟨sc5, heq5, hsn5', hsl5'⟩ := hstep5
      (fun n' => if n' = nlognName then some ((0 : ℝ)) else sc3 n')
      (by
        show (if nlognName = nlognName then some ((0 : ℝ)) else sc3 nlognName)
          = some 0
        rw [if_pos rfl])
      (some r3)
      (by
        show (if linName = nlognName then some ((0 : ℝ)) else sc3 linName) = some r3
        rw [if_neg (by decide)]
        exact hv)
    rw [heq5]
    exact ⟨sc5, rfl, hsn5', Or.inr ⟨r3, hsl5', hr3⟩⟩

/-- C2: for durations exactly proportional to `n * ln n` over the sizes
`[100, 500, 1000, 2000, 5000]`, `detect_complexity` selects the Linearithmic
model (not Linear); and whenever the Linear and Linearithmic RMSE values are
within 5% of the smaller (and the log-log regression of the tie-breaker is
non-degenerate: at least two positive data pairs, non-zero variance of
`ln n`, `ln n_mid` away from zero), `_tie_break_linear_vs_nlogn` compares the
observed log-log slope against 1 and `1 + 1/ln(n_mid)` and returns the closer
model together with that model's original RMSE. -/
theorem detect_nlogn (k : ℝ) (hk : 0 < k) (nv tv : List ℝ)
    (sc : String → Option ℝ) (l g : ℝ)
    (hl : sc linName = some l) (hg : sc nlognName = some g)
    (hth : |l - g| ≤ (0.05 : ℝ) * min l g)
    (hpairs : ¬ (logPairs nv tv).length < 2)
    (hvar : varLn nv tv ≠ 0) (hmid : ¬ |lnMid nv tv| < 1e-6) :
    detect_complexity [(100 : ℝ), 500, 1000, 2000, 5000]
        ([(100 : ℝ), 500, 1000, 2000, 5000].map fun x => k * (x * Real.log x))
      = (some nlognName, some 0) ∧
    _tie_break_linear_vs_nlogn nv tv sc
      = if |logLogSlope nv tv - 1| ≤
            |logLogSlope nv tv - (1 + 1 / lnMid nv tv)| then
          some (linName, l)
        else some (nlognName, g) := by
  constructor
  · have hl15 : Real.log 100 < Real.log 500 :=
      Real.log_lt_log (by norm_num) (by norm_num)
    have hmem0 : (100 : ℝ) ∈ [(100 : ℝ), 500, 1000, 2000, 5000] := by simp
    have hmem1 : (500 : ℝ) ∈ [(100 : ℝ), 500, 1000, 2000, 5000] := by simp
    have hmem2 : (1000 : ℝ) ∈ [(100 : ℝ), 500, 1000, 2000, 5000] := by
      simp
    have hdiff : (1 : ℝ) ≤ 500 * Real.log 500 - 100 * Real.log 100 := by
      nlinarith [one_lt_log_100, hl15,
        mul_pos (show (0 : ℝ) < 500 by norm_num) (sub_pos.mpr hl15)]
    have hsmallc : (100 : ℝ) * Real.log 100 < 1e12 := by
      nlinarith [Real.log_le_sub_one_of_pos (show (0 : ℝ) < 100 by norm_num)]
    have hg0 : (0 : ℝ) < (100 : ℝ) * Real.log 100 :=
      mul_pos (by norm_num) (Real.log_pos (by norm_num))
    have hminfact : ∀ n ∈ [(100 : ℝ), 500, 1000, 2000, 5000],
        (100 : ℝ) * Real.log 100 ≤ n * Real.log n := by
      intro n hn
      simp only [List.mem_cons, List.not_mem_nil, or_false] at hn
      rcases hn with rfl | rfl | rfl | rfl | rfl
      · exact le_refl _
      all_goals exact (mul_log_lt_mul_log (by norm_num) (by norm_num)).le
    have hLpos : ∀ x ∈ [(100 : ℝ), 500, 1000, 2000, 5000], (0 : ℝ) < x := by
      intro x hx
      simp only [List.mem_cons, List.not_mem_nil, or_false] at hx
      rcases hx with rfl | rfl | rfl | rfl | rfl <;> norm_num
    have hnormT : normalizeTimes
        ([(100 : ℝ), 500, 1000, 2000, 5000].map fun x => k * (x * Real.log x))
        = [(100 : ℝ), 500, 1000, 2000, 5000].map
            fun x => x * Real.log x / ((100 : ℝ) * Real.log 100) := by
      have h := normalizeTimes_map [(100 : ℝ), 500, 1000, 2000, 5000]
        (by simp) k (fun x : ℝ => x * Real.log x) hk hg0 hminfact
      exact h
    have hmodels : models [(100 : ℝ), 500, 1000, 2000, 5000]
        = [(constName, [(100 : ℝ), 500, 1000, 2000, 5000].map fun _ => 1),
           (logName, [(100 : ℝ), 500, 1000, 2000, 5000].map Real.log),
           (linName, [(100 : ℝ), 500, 1000, 2000, 5000]),
           (nlognName, [(100 : ℝ), 500, 1000, 2000, 5000].map
              fun x => x * Real.log x),
           (quadName, [(100 : ℝ), 500, 1000, 2000, 5000].map
              fun x => x ^ 2)] := by
      have h2 : ([(100 : ℝ), 500, 1000, 2000, 5000].map
            fun n => if 0 < n then Real.log n else 0)
          = [(100 : ℝ), 500, 1000, 2000, 5000].map Real.log :=
        List.map_congr_left fun x hx => if_pos (hLpos x hx)
      have h4 : ([(100 : ℝ), 500, 1000, 2000, 5000].map
            fun n => if 0 < n then n * Real.log n else 0)
          = [(100 : ℝ), 500, 1000, 2000, 5000].map fun x => x * Real.log x :=
        List.map_congr_left fun x hx => if_pos (hLpos x hx)
      rw [models, h2, h4]
    obtain ⟨scf, hsm0, hnl, hlin⟩ := score_models_nlogn_trace
      [(100 : ℝ), 500, 1000, 2000, 5000] ((100 : ℝ) * Real.log 100)
      100 500 1000 hmem0 hmem1 hmem2 rfl (by norm_num) (by norm_num)
      (by norm_num) rfl (by simp) hdiff hsmallc
    have hsm : _score_models
        (normalizeTimes ([(100 : ℝ), 500, 1000, 2000, 5000].map
          fun x => k * (x * Real.log x)))
        (models [(100 : ℝ), 500, 1000, 2000, 5000])
        = (some (nlognName, 0), scf) := by
      rw [hnormT, hmodels]
      exact hsm0
    rw [detect_complexity_eq _ _ (by simp) hsm, if_pos (Or.inr rfl)]
    rcases hlin with hn | ⟨r3, hn, hr3⟩
    · rw [tie_break_none_left hn]
    · rw [tie_break_none_of_gap hn hnl (by
        rw [min_eq_right hr3.le, mul_zero]
        rw [abs_of_pos (by linarith : (0 : ℝ) < r3 - 0)]
        linarith)]
  · simp only [_tie_break_linear_vs_nlogn, hl, hg]
    rw [if_neg (not_lt.mpr hth), if_neg hpairs, if_neg hvar, if_neg hmid]

/-- Witness for C2 at `k = 1e-6` and at the tie-breaker inputs
`n_values = [100, 1000]`, `times = [1, 2]` with both recorded RMSE values
equal to `1`. -/
theorem detect_nlogn_witness :
    detect_complexity [(100 : ℝ), 500, 1000, 2000, 5000]
        ([(100 : ℝ), 500, 1000, 2000, 5000].map
          fun x => (1e-6 : ℝ) * (x * Real.log x))
      = (some nlognName, some 0) ∧
    _tie_break_linear_vs_nlogn [(100 : ℝ), 1000] [(1 : ℝ), 2]
        (fun name => if name = linName then some (1 : ℝ)
          else if name = nlognName then some (1 : ℝ) else none)
      = if |logLogSlope [(100 : ℝ), 1000] [(1 : ℝ), 2] - 1| ≤
            |logLogSlope [(100 : ℝ), 1000] [(1 : ℝ), 2] -
              (1 + 1 / lnMid [(100 : ℝ), 1000] [(1 : ℝ), 2])| then
          some (linName, (1 : ℝ))
        else some (nlognName, (1 : ℝ)) := by
  have hpairsW : logPairs [(100 : ℝ), 1000] [(1 : ℝ), 2]
      = [((100 : ℝ), (1 : ℝ)), ((1000 : ℝ), (2 : ℝ))] := by
    norm_num [logPairs, List.filter]
  have hlt : Real.log 100 < Real.log 1000 :=
    Real.log_lt_log (by norm_num) (by norm_num)
  have hm : meanLn [(100 : ℝ), 1000] [(1 : ℝ), 2]
      = (Real.log 100 + Real.log 1000) / 2 := by
    rw [meanLn, hpairsW]
    simp [fmean]
  have hvarW : varLn [(100 : ℝ), 1000] [(1 : ℝ), 2] ≠ 0 := by
    rw [varLn, hpairsW]
    simp only [List.map_cons, List.map_nil, List.sum_cons, List.sum_nil, hm]
    have hpos : (0 : ℝ) <
        (Real.log 100 - (Real.log 100 + Real.log 1000) / 2) ^ 2 +
          ((Real.log 1000 - (Real.log 100 + Real.log 1000) / 2) ^ 2 + 0) := by
      nlinarith [hlt, sq_nonneg (Real.log 1000 - Real.log 100)]
    exact ne_of_gt hpos
  have hmidW : ¬ |lnMid [(100 : ℝ), 1000] [(1 : ℝ), 2]| < 1e-6 := by
    rw [lnMid, Real.log_exp, hm]
    rw [abs_of_pos (by nlinarith [one_lt_log_100, hlt])]
    nlinarith [one_lt_log_100, hlt]
  exact detect_nlogn 1e-6 (by norm_num) [(100 : ℝ), 1000] [(1 : ℝ), 2]
    (fun name => if name = linName then some (1 : ℝ)
      else if name = nlognName then some (1 : ℝ) else none) 1 1
    (by
      show (if linName = linName then some ((1 : ℝ))
        else if linName = nlognName then some ((1 : ℝ)) else none) = some 1
      rw [if_pos rfl])
    (by
      show (if nlognName = linName then some ((1 : ℝ))
        else if nlognName = nlognName then some ((1 : ℝ)) else none) = some 1
      rw [if_neg (by decide), if_pos rfl])
    (by norm_num) (by rw [hpairsW]; norm_num) hvarW hmidW

end EstimateComplexity
